import Mathlib

/-!
# Verification of the graph-builder ingestion engine

A shallow embedding, in Lean 4, of the core functions of
`graph-builder/builder/build_engine.py` (and the task wrapper in
`builder/main.py`), together with theorems settling the frozen claims
about the specification.

Conventions of the embedding:
* Python strings are `String` / `List Char`; bytes that the code decodes
  with a lossy codec are modelled at the point after decoding.
* Python ints are `Int` (or `Nat` where the source value is a count),
  floats produced by exact rational arithmetic are `Rat`; the only
  irrational step of the source (`math.sqrt` in the anomaly scorer) is
  modelled by passing the standard deviation as an argument constrained
  by its defining equation `sd ^ 2 = variance ∧ 0 ≤ sd`.
* Cypher `MERGE`-based graph writes are modelled as update-or-append on
  association lists keyed by the identity fields of the `MERGE` pattern.
* Fallible Python code is modelled with `Except String`.
-/

namespace BuildEngine

/-! ## Version handling (`_semver_major_bump`, build_engine.py lines 641-664)

`norm` in the source does, in order: `if not v: return None`, `v.strip()`,
`re.sub(r'^[\^~<>=\s]*v?', '', v)`, then `re.search(r'(\d+)(?:\.(\d+))?(?:\.(\d+))?', v)`
and converts the captured groups to ints.  Only the major component
(first capture group, i.e. the first maximal run of digits) is consulted
by the comparison `n[0] > p[0]`; minor/patch are parsed but unused there,
so the embedding keeps the major component only. -/

/-- Python `str.strip()` whitespace set (` \t\n\r\x0b\x0c`). -/
def pyIsSpace (c : Char) : Bool :=
  c = ' ' || c = '\t' || c = '\n' || c = '\r' || c = '\x0b' || c = '\x0c'

/-- Python `v.strip()` on a character list. -/
def pyStrip (s : List Char) : List Char :=
  ((s.dropWhile pyIsSpace).reverse.dropWhile pyIsSpace).reverse

/-- The character class `[\^~<>=\s]` of the operator-stripping regex. -/
def isVerOpChar (c : Char) : Bool :=
  c = '^' || c = '~' || c = '<' || c = '>' || c = '=' || pyIsSpace c

/-- Embeds `re.sub(r'^[\^~<>=\s]*', ...)`: drop the leading run of operator chars. -/
def dropVerOps (s : List Char) : List Char := s.dropWhile isVerOpChar

/-- The trailing `v?` of the stripping regex: drop at most one leading `v`. -/
def dropLeadV : List Char → List Char
  | 'v' :: rest => rest
  | s => s

/-- Embeds `re.search(r'(\d+)...')`: the first maximal run of digits, if any. -/
def firstDigitRun : List Char → Option (List Char)
  | [] => none
  | c :: rest =>
      if c.isDigit then some (c :: rest.takeWhile (fun d => d.isDigit))
      else firstDigitRun rest

/-- Decimal value of a digit run (`int` on the captured group). -/
def digitsVal (ds : List Char) : Nat :=
  ds.foldl (fun a c => 10 * a + (c.toNat - '0'.toNat)) 0

/-- The major component extracted by `norm` inside `_semver_major_bump`;
`none` exactly when `norm` returns `None`. -/
def normMajor (v : String) : Option Nat :=
  if v = "" then none
  else (firstDigitRun (dropLeadV (dropVerOps (pyStrip v.data)))).map digitsVal

/-- Embeds `_semver_major_bump(prev, new)` (build_engine.py lines 641-664):
`True` if new major > prev major, `False` if not, `None` if undecidable. -/
def semver_major_bump (prev newv : String) : Option Bool :=
  match normMajor prev, normMajor newv with
  | some p, some n => some (decide (p < n))
  | _, _ => none

/-- The value stored on the `UPDATES_DEP` edge: `mg_upsert_dependencies`
writes `major=(True if major else False)` (line 714), collapsing `None`
to `False`. -/
def is_major_bump_value (prev newv : String) : Bool :=
  match semver_major_bump prev newv with
  | some b => b
  | none => false

theorem firstDigitRun_eq_none_iff (s : List Char) :
    firstDigitRun s = none ↔ ∀ c ∈ s, c.isDigit = false := by
  induction s with
  | nil => simp [firstDigitRun]
  | cons a t ih =>
    by_cases h : a.isDigit = true
    · simp [firstDigitRun, h]
    · simp only [Bool.not_eq_true] at h
      simp [firstDigitRun, h, ih]

theorem mem_dropWhile_of_pred_false {p : Char → Bool} {x : Char} :
    ∀ {l : List Char}, x ∈ l → p x = false → x ∈ l.dropWhile p := by
  intro l
  induction l with
  | nil => intro h; exact absurd h (List.not_mem_nil x)
  | cons a t ih =>
    intro hmem hpx
    by_cases ha : p a = true
    · rw [List.dropWhile_cons_of_pos ha]
      rcases List.mem_cons.mp hmem with rfl | ht
      · rw [hpx] at ha; exact absurd ha (by simp)
      · exact ih ht hpx
    · rw [List.dropWhile_cons_of_neg ha]
      exact hmem

theorem mem_of_mem_dropWhileChar {p : Char → Bool} {x : Char} :
    ∀ {l : List Char}, x ∈ l.dropWhile p → x ∈ l := by
  intro l
  induction l with
  | nil => simp [List.dropWhile]
  | cons a t ih =>
    intro h
    by_cases ha : p a = true
    · rw [List.dropWhile_cons_of_pos ha] at h
      exact List.mem_cons_of_mem _ (ih h)
    · rwa [List.dropWhile_cons_of_neg ha] at h

theorem isVerOpChar_isDigit_false {c : Char} (h : isVerOpChar c = true) :
    c.isDigit = false := by
  have hmem : c ∈ ['^', '~', '<', '>', '=', ' ', '\t', '\n', '\r', '\x0b', '\x0c'] := by
    simp only [isVerOpChar, pyIsSpace, Bool.or_eq_true, decide_eq_true_eq] at h
    simp only [List.mem_cons, List.not_mem_nil, or_false]
    tauto
  fin_cases hmem <;> decide

theorem digit_mem_pyStrip {x : Char} {s : List Char}
    (hx : x ∈ s) (hd : x.isDigit = true) : x ∈ pyStrip s := by
  have hfalse : pyIsSpace x = false := by
    cases hps : pyIsSpace x with
    | false => rfl
    | true =>
      have := isVerOpChar_isDigit_false (c := x) (by simp [isVerOpChar, hps])
      rw [hd] at this; exact absurd this (by simp)
  unfold pyStrip
  rw [List.mem_reverse]
  apply mem_dropWhile_of_pred_false _ hfalse
  rw [List.mem_reverse]
  exact mem_dropWhile_of_pred_false hx hfalse

theorem digit_mem_dropLeadV {x : Char} {s : List Char}
    (hx : x ∈ s) (hd : x.isDigit = true) : x ∈ dropLeadV s := by
  match s, hx with
  | 'v' :: rest, hx =>
    rcases List.mem_cons.mp hx with rfl | ht
    · exact absurd hd (by decide)
    · simpa [dropLeadV] using ht
  | [], hx => exact absurd hx (List.not_mem_nil x)
  | c :: rest, hx =>
    -- either `c = 'v'` (handled above) or `dropLeadV` is the identity
    by_cases hv : c = 'v'
    · subst hv
      rcases List.mem_cons.mp hx with rfl | ht
      · exact absurd hd (by decide)
      · simpa [dropLeadV] using ht
    · have : dropLeadV (c :: rest) = c :: rest := by
        unfold dropLeadV
        split
        · rename_i heq; rw [List.cons.injEq] at heq
          exact absurd heq.1 hv
        · rfl
      rw [this]; exact hx

theorem normMajor_eq_none_iff (v : String) :
    normMajor v = none ↔ v = "" ∨ ∀ c ∈ v.data, c.isDigit = false := by
  unfold normMajor
  by_cases hv : v = ""
  · simp [hv]
  · rw [if_neg hv, Option.map_eq_none', firstDigitRun_eq_none_iff]
    simp only [hv, false_or]
    constructor
    · intro h c hc
      cases hd : c.isDigit with
      | false => rfl
      | true =>
        have h1 : c ∈ pyStrip v.data := digit_mem_pyStrip hc hd
        have h2 : c ∈ dropVerOps (pyStrip v.data) := by
          apply mem_dropWhile_of_pred_false h1
          cases hop : isVerOpChar c with
          | false => rfl
          | true => rw [isVerOpChar_isDigit_false hop] at hd; exact absurd hd (by simp)
        have h3 := digit_mem_dropLeadV h2 hd
        have hcon := h c h3
        rw [hd] at hcon
        exact absurd hcon (by simp)
    · intro h c hc
      apply h
      have h1 : c ∈ dropVerOps (pyStrip v.data) := by
        -- membership flows back through `dropLeadV`
        revert hc
        generalize dropVerOps (pyStrip v.data) = l
        intro hc
        cases l with
        | nil => simp [dropLeadV] at hc
        | cons a t =>
          by_cases hv' : a = 'v'
          · subst hv'; simp only [dropLeadV] at hc; exact List.mem_cons_of_mem _ hc
          · have hid : dropLeadV (a :: t) = a :: t := by
              unfold dropLeadV
              split
              · rename_i heq; rw [List.cons.injEq] at heq; exact absurd heq.1 hv'
              · rfl
            rwa [hid] at hc
      have h2 : c ∈ pyStrip v.data := mem_of_mem_dropWhileChar h1
      unfold pyStrip at h2
      rw [List.mem_reverse] at h2
      have h4 := mem_of_mem_dropWhileChar h2
      rw [List.mem_reverse] at h4
      exact mem_of_mem_dropWhileChar h4

/-- C4. The `is_major_bump` value written on an `UPDATES_DEP` edge is
true iff both versions have a decidable major component (first digit run
after dropping range-operator/space prefixes and a leading `v`) and the
new major strictly exceeds the previous one; a version is undecidable
exactly when it is empty or contains no digit, and then the flag is
false (it is false whenever the right side fails). -/
theorem C4_is_major_bump_iff (prev newv : String) :
    (is_major_bump_value prev newv = true ↔
       ∃ mp mn, normMajor prev = some mp ∧ normMajor newv = some mn ∧ mp < mn)
    ∧ (normMajor prev = none ↔ prev = "" ∨ ∀ c ∈ prev.data, c.isDigit = false)
    ∧ (normMajor newv = none ↔ newv = "" ∨ ∀ c ∈ newv.data, c.isDigit = false) := by
  refine ⟨?_, normMajor_eq_none_iff prev, normMajor_eq_none_iff newv⟩
  rcases h1 : normMajor prev with _ | p <;>
    rcases h2 : normMajor newv with _ | n <;>
      simp [is_major_bump_value, semver_major_bump, h1, h2]

/-! ## Anomaly scoring (`_mean_std`, `score_commit_anomaly`, build_engine.py lines 782-850)

`_mean_std(vals)` returns `(0.0, 0.0)` on an empty list, otherwise the
mean and `math.sqrt` of the population variance
`sum((v - mu) ** 2) / max(1, n)`.  The square root is the one
non-rational step; the embedding keeps the variance and passes the
standard deviation `sd` as an argument constrained by `sd ^ 2 = var`
and `0 ≤ sd` where a theorem needs it (these two equations determine
`sd = math.sqrt var` uniquely). -/

/-- The mean component of `_mean_std`. -/
def meanOf (vals : List ℚ) : ℚ :=
  if vals.length = 0 then 0 else vals.sum / (vals.length : ℚ)

/-- The value under the square root in `_mean_std`:
`sum((v - mu) ** 2 for v in vals) / max(1, n)` (and `0` for `n = 0`). -/
def varOf (vals : List ℚ) : ℚ :=
  if vals.length = 0 then 0
  else (vals.map (fun v => (v - meanOf vals) ^ 2)).sum / ((max 1 vals.length : ℕ) : ℚ)

/-- The inner helper `z(x, mu, sd)` of `score_commit_anomaly` (line 819):
`0.0 if sd == 0 else (x - mu) / sd`. -/
def zscore (x mu sd : ℚ) : ℚ :=
  if sd = 0 then 0 else (x - mu) / sd

/-- Python `%` on ints (result has the sign of the modulus). -/
def pymod (a b : ℤ) : ℤ := ((a % b) + b) % b

/-- Embeds `frac_off_hours(hour_hist, h)` (lines 825-831): `0.0` when the
history is empty or the hour is missing, else the fraction of history
hours outside `{(h-1) % 24, h, (h+1) % 24}`. -/
def frac_off_hours (hour_hist : List ℤ) (h : Option ℤ) : ℚ :=
  match h with
  | none => 0
  | some hv =>
    if hour_hist = [] then 0
    else
      let neighbors : List ℤ := [pymod (hv - 1) 24, hv, pymod (hv + 1) 24]
      let good : ℕ := (hour_hist.filter (fun x => x ∈ neighbors)).length
      1 - ((good : ℚ) / (hour_hist.length : ℚ))

/-- The fields persisted on the Commit node by `score_commit_anomaly`
(lines 843-850). -/
structure AnomalyResult where
  z_files : ℚ
  z_lines : ℚ
  off_hours : Bool
  anomaly_score : ℚ
  anomaly_flags : List String
  deriving Repr, DecidableEq

/-- Lines 833-841 of `score_commit_anomaly`: score and flags from the
two z-scores and the off-hours indicator. -/
def scoreAndFlags (z_files z_lines : ℚ) (off_hours : Bool) : AnomalyResult :=
  { z_files := z_files
    z_lines := z_lines
    off_hours := off_hours
    anomaly_score :=
      min 10 (|z_files| + (1 / 2) * |z_lines| + (if off_hours then 2 else 0))
    anomaly_flags :=
      (if 3 ≤ z_files then ["files_spike"] else []) ++
      (if 3 ≤ z_lines then ["lines_spike"] else []) ++
      (if off_hours then ["off_hours"] else []) }

/-- The pure core of `score_commit_anomaly` (lines 791-850): given the
current commit's `files_changed`, `lines_changed` and `hour`, the
window of prior same-author same-branch commits (their files, lines and
hours), and the standard deviations `sd_f = math.sqrt (varOf prev_files)`,
`sd_l = math.sqrt (varOf prev_lines)` supplied as arguments, the record
persisted on the commit. -/
def score_commit_anomaly (f_now l_now : ℚ) (h_now : Option ℤ)
    (prev_files prev_lines : List ℚ) (prev_hours : List ℤ)
    (sd_f sd_l : ℚ) : AnomalyResult :=
  let z_files := zscore f_now (meanOf prev_files) sd_f
  let z_lines := zscore l_now (meanOf prev_lines) sd_l
  let off_hours := decide ((95 : ℚ) / 100 < frac_off_hours prev_hours h_now)
  scoreAndFlags z_files z_lines off_hours

theorem scoreAndFlags_spec (zf zl : ℚ) (off : Bool) :
    (scoreAndFlags zf zl off).anomaly_score =
        min 10 (|zf| + (1 / 2) * |zl| + (if off then 2 else 0))
      ∧ 0 ≤ (scoreAndFlags zf zl off).anomaly_score
      ∧ (scoreAndFlags zf zl off).anomaly_score ≤ 10
      ∧ (scoreAndFlags zf zl off).anomaly_flags ⊆ ["files_spike", "lines_spike", "off_hours"]
      ∧ ("files_spike" ∈ (scoreAndFlags zf zl off).anomaly_flags ↔ 3 ≤ zf)
      ∧ ("lines_spike" ∈ (scoreAndFlags zf zl off).anomaly_flags ↔ 3 ≤ zl)
      ∧ ("off_hours" ∈ (scoreAndFlags zf zl off).anomaly_flags ↔ off = true) := by
  have h1 := abs_nonneg zf
  have h2 := abs_nonneg zl
  refine ⟨rfl, ?_, min_le_left _ _, ?_, ?_, ?_, ?_⟩
  · simp only [scoreAndFlags]
    apply le_min (by norm_num)
    cases off
    · simp only [Bool.false_eq_true, if_false]; nlinarith
    · simp only [if_true]; nlinarith
  all_goals
    by_cases hf : (3 : ℚ) ≤ zf <;> by_cases hl : (3 : ℚ) ≤ zl <;> cases off <;>
      simp [scoreAndFlags, hf, hl]

/-- C2. For every scored commit the persisted anomaly score equals
`min(10, |z_files| + 0.5·|z_lines| + (2 if off_hours else 0))`, hence
`0 ≤ anomaly_score ≤ 10`, and the flag list is a sublist of
`[files_spike, lines_spike, off_hours]` with each flag present iff its
condition holds (`z_files ≥ 3`, `z_lines ≥ 3`, off-hours respectively). -/
theorem C2_anomaly_score_and_flags (f_now l_now : ℚ) (h_now : Option ℤ)
    (prev_files prev_lines : List ℚ) (prev_hours : List ℤ) (sd_f sd_l : ℚ) :
    (score_commit_anomaly f_now l_now h_now prev_files prev_lines prev_hours
        sd_f sd_l).anomaly_score =
      min 10
        (|(score_commit_anomaly f_now l_now h_now prev_files prev_lines prev_hours
            sd_f sd_l).z_files|
          + (1 / 2) * |(score_commit_anomaly f_now l_now h_now prev_files prev_lines
              prev_hours sd_f sd_l).z_lines|
          + (if (score_commit_anomaly f_now l_now h_now prev_files prev_lines prev_hours
              sd_f sd_l).off_hours then 2 else 0))
    ∧ 0 ≤ (score_commit_anomaly f_now l_now h_now prev_files prev_lines prev_hours
        sd_f sd_l).anomaly_score
    ∧ (score_commit_anomaly f_now l_now h_now prev_files prev_lines prev_hours
        sd_f sd_l).anomaly_score ≤ 10
    ∧ (score_commit_anomaly f_now l_now h_now prev_files prev_lines prev_hours
        sd_f sd_l).anomaly_flags ⊆ ["files_spike", "lines_spike", "off_hours"]
    ∧ ("files_spike" ∈ (score_commit_anomaly f_now l_now h_now prev_files prev_lines
          prev_hours sd_f sd_l).anomaly_flags
        ↔ 3 ≤ (score_commit_anomaly f_now l_now h_now prev_files prev_lines prev_hours
            sd_f sd_l).z_files)
    ∧ ("lines_spike" ∈ (score_commit_anomaly f_now l_now h_now prev_files prev_lines
          prev_hours sd_f sd_l).anomaly_flags
        ↔ 3 ≤ (score_commit_anomaly f_now l_now h_now prev_files prev_lines prev_hours
            sd_f sd_l).z_lines)
    ∧ ("off_hours" ∈ (score_commit_anomaly f_now l_now h_now prev_files prev_lines
          prev_hours sd_f sd_l).anomaly_flags
        ↔ (score_commit_anomaly f_now l_now h_now prev_files prev_lines prev_hours
            sd_f sd_l).off_hours = true) :=
  scoreAndFlags_spec _ _ _

/-- C8. In the anomaly scorer, a zero standard deviation gives a zero
z-score (both for the literal `sd = 0` guard of `z` and for any `sd`
with `sd = math.sqrt var` and `var = 0`), and an empty window of prior
same-author same-branch commits yields the all-zero persisted result:
`z_files = 0`, `z_lines = 0`, `off_hours = false`, `anomaly_score = 0`,
no flags. -/
theorem C8_zero_std_and_empty_window :
    (∀ x mu : ℚ, zscore x mu 0 = 0)
    ∧ (∀ (prev : List ℚ) (x sd : ℚ), sd ^ 2 = varOf prev → 0 ≤ sd →
         varOf prev = 0 → zscore x (meanOf prev) sd = 0)
    ∧ (∀ (f_now l_now : ℚ) (h_now : Option ℤ) (sd_f sd_l : ℚ),
         sd_f ^ 2 = varOf ([] : List ℚ) → 0 ≤ sd_f →
         sd_l ^ 2 = varOf ([] : List ℚ) → 0 ≤ sd_l →
         score_commit_anomaly f_now l_now h_now [] [] [] sd_f sd_l =
           { z_files := 0, z_lines := 0, off_hours := false,
             anomaly_score := 0, anomaly_flags := [] }) := by
  have hz : ∀ x mu : ℚ, zscore x mu 0 = 0 := fun x mu => by simp [zscore]
  have hsd0 : ∀ sd : ℚ, sd ^ 2 = 0 → sd = 0 := fun sd h => by
    exact pow_eq_zero_iff (n := 2) (by norm_num) |>.mp h
  refine ⟨hz, ?_, ?_⟩
  · intro prev x sd hsq _ hvar
    rw [hvar] at hsq
    rw [hsd0 sd hsq]
    exact hz x _
  · intro f_now l_now h_now sd_f sd_l hf _ hl _
    have hvar : varOf ([] : List ℚ) = 0 := by simp [varOf]
    rw [hvar] at hf hl
    rw [score_commit_anomaly, hsd0 sd_f hf, hsd0 sd_l hl]
    have hfrac : frac_off_hours [] h_now = 0 := by
      cases h_now <;> simp [frac_off_hours]
    rw [hz, hz, hfrac]
    simp [scoreAndFlags]
    norm_num [min_def]

/-- Witness for C8 at concrete inputs: the window `[2, 2]` has zero
variance so the z-score is zero, and an empty window yields the
all-zero result. -/
theorem C8_witness :
    zscore 5 (meanOf [2, 2]) 0 = 0 ∧
    score_commit_anomaly 5 7 (some 3) [] [] [] 0 0 =
      { z_files := 0, z_lines := 0, off_hours := false,
        anomaly_score := 0, anomaly_flags := [] } :=
  ⟨C8_zero_std_and_empty_window.2.1 [2, 2] 5 0
      (by norm_num [varOf, meanOf]) le_rfl (by norm_num [varOf, meanOf]),
   C8_zero_std_and_empty_window.2.2 5 7 (some 3) 0 0
      (by norm_num [varOf]) le_rfl (by norm_num [varOf]) le_rfl⟩

/-! ## Commit projection and rollups (`run_branch_ingest` lines 1325-1347,
`mg_link_commit` lines 366-410, `mg_link_file_touch` lines 413-427)

The orchestrator merges `name_status` (a dict `{new_path: {status, old_path?}}`)
and `numstat` (a dict `{path: (adds, dels)}`) into one file-change record
list; `mg_link_commit` computes the rollups from that list; one
`mg_link_file_touch` call per record `MERGE`s a `TOUCHED` edge keyed by
`(sha, path)`.  Python dicts are modelled as association lists whose keys
are assumed `Nodup`. -/

/-- One merged per-file change record (lines 1329-1347). -/
structure FileChange where
  path : String
  status : String
  old_path : Option String
  additions : ℤ
  deletions : ℤ
  deriving Repr, DecidableEq

/-- One entry of the `_git_name_status` result. -/
structure NameStatusEntry where
  path : String
  status : String
  old_path : Option String
  deriving Repr, DecidableEq

/-- Embeds `numstat.get(p, (0, 0))` on the association-list model of the dict. -/
def lookupNumstat (numstat : List (String × ℤ × ℤ)) (p : String) : ℤ × ℤ :=
  match numstat.find? (fun q => q.1 = p) with
  | some q => q.2
  | none => (0, 0)

/-- Lines 1325-1347: records for every `name_status` entry (with counts
looked up in `numstat`), then records for `numstat` paths not already
seen, with status `M` and no old path. -/
def mergeFileChanges (nstat : List NameStatusEntry)
    (numstat : List (String × ℤ × ℤ)) : List FileChange :=
  (nstat.map fun e =>
    { path := e.path, status := e.status, old_path := e.old_path
      additions := (lookupNumstat numstat e.path).1
      deletions := (lookupNumstat numstat e.path).2 })
  ++ ((numstat.filter fun q => ¬ nstat.any (fun e => e.path = q.1)).map fun q =>
    { path := q.1, status := "M", old_path := none
      additions := q.2.1, deletions := q.2.2 })

/-- The rollup attributes `mg_link_commit` stores on the Commit node
(lines 370-373 and 384-387). -/
structure CommitRollups where
  files_changed : ℕ
  lines_added : ℤ
  lines_deleted : ℤ
  lines_changed : ℤ
  deriving Repr, DecidableEq

/-- Lines 370-373: `files_changed = len(file_changes)`,
`adds_total`/`dels_total` are the sums, `lines_total` their sum. -/
def mg_link_commit_rollups (file_changes : List FileChange) : CommitRollups :=
  { files_changed := file_changes.length
    lines_added := (file_changes.map (fun fc => fc.additions)).sum
    lines_deleted := (file_changes.map (fun fc => fc.deletions)).sum
    lines_changed := (file_changes.map (fun fc => fc.additions)).sum
      + (file_changes.map (fun fc => fc.deletions)).sum }

/-- A `(Commit)-[TOUCHED]->(File)` edge of one fixed commit; the edge is
keyed by the file path. -/
structure TouchedEdge where
  path : String
  status : String
  additions : ℤ
  deletions : ℤ
  old_path : Option String
  deriving Repr, DecidableEq

/-- Embeds `mg_link_file_touch` (lines 413-427) for one record: `MERGE` the
edge keyed by path, then `SET` its attributes. -/
def mg_link_file_touch (edges : List TouchedEdge) (fc : FileChange) : List TouchedEdge :=
  if edges.any (fun e => e.path = fc.path) then
    edges.map fun e =>
      if e.path = fc.path then
        { path := e.path, status := fc.status, additions := fc.additions
          deletions := fc.deletions, old_path := fc.old_path }
      else e
  else
    edges ++ [{ path := fc.path, status := fc.status, additions := fc.additions
                deletions := fc.deletions, old_path := fc.old_path }]

/-- The per-commit loop of `run_branch_ingest` calls
`mg_link_file_touch` once per record, in order (line 1361). -/
def linkFileTouches (edges : List TouchedEdge) (fcs : List FileChange) : List TouchedEdge :=
  fcs.foldl mg_link_file_touch edges

theorem sum_map_add_fc (l : List FileChange) :
    (l.map fun fc => fc.additions + fc.deletions).sum
      = (l.map (fun fc => fc.additions)).sum + (l.map (fun fc => fc.deletions)).sum := by
  induction l with
  | nil => simp
  | cons a t ih => simp only [List.map_cons, List.sum_cons, ih]; ring

theorem linkFileTouches_length (fcs : List FileChange) :
    ∀ edges : List TouchedEdge, (fcs.map (fun fc => fc.path)).Nodup →
      (∀ fc ∈ fcs, ∀ e ∈ edges, e.path ≠ fc.path) →
      (linkFileTouches edges fcs).length = edges.length + fcs.length := by
  induction fcs with
  | nil => intro edges _ _; simp [linkFileTouches]
  | cons fc rest ih =>
    intro edges hnd hdisj
    have hnone : edges.any (fun e => e.path = fc.path) = false := by
      rw [List.any_eq_false]
      intro e he
      simpa using hdisj fc (List.mem_cons_self fc rest) e he
    have hstep : mg_link_file_touch edges fc
        = edges ++ [{ path := fc.path, status := fc.status, additions := fc.additions
                      deletions := fc.deletions, old_path := fc.old_path }] := by
      rw [mg_link_file_touch, hnone]; simp
    rw [List.map_cons, List.nodup_cons] at hnd
    have hrest : ∀ fc' ∈ rest, ∀ e ∈ mg_link_file_touch edges fc, e.path ≠ fc'.path := by
      intro fc' hfc' e he
      rw [hstep, List.mem_append] at he
      rcases he with he | he
      · exact hdisj fc' (List.mem_cons_of_mem _ hfc') e he
      · rcases List.mem_singleton.mp he with rfl
        intro hcon
        have hcon' : fc.path = fc'.path := hcon
        exact hnd.1 (hcon' ▸ List.mem_map_of_mem (fun fc => fc.path) hfc')
    have := ih (mg_link_file_touch edges fc) hnd.2 hrest
    rw [linkFileTouches, List.foldl_cons] at *
    rw [this, hstep]
    simp [List.length_append]
    omega

/-- C3. For a commit projected from a merged file-change record list
(with the dict keys of `name_status` and `numstat` distinct, as Python
dicts guarantee): the merged record paths are pairwise distinct, the
stored `files_changed` equals the number of records, exactly one
`TOUCHED` edge is created per record, and `lines_added`,
`lines_deleted`, `lines_changed` are the corresponding sums over the
records. -/
theorem C3_rollup_consistency (nstat : List NameStatusEntry)
    (numstat : List (String × ℤ × ℤ))
    (hn : (nstat.map (fun e => e.path)).Nodup)
    (hm : (numstat.map (fun q => q.1)).Nodup) :
    let fcs := mergeFileChanges nstat numstat
    let r := mg_link_commit_rollups fcs
    ((fcs.map (fun fc => fc.path)).Nodup
      ∧ r.files_changed = fcs.length
      ∧ (linkFileTouches [] fcs).length = fcs.length
      ∧ r.lines_added = (fcs.map (fun fc => fc.additions)).sum
      ∧ r.lines_deleted = (fcs.map (fun fc => fc.deletions)).sum
      ∧ r.lines_changed = (fcs.map (fun fc => fc.additions + fc.deletions)).sum) := by
  intro fcs r
  have hpaths : (fcs.map (fun fc => fc.path)).Nodup := by
    show ((mergeFileChanges nstat numstat).map (fun fc => fc.path)).Nodup
    have hshape : (mergeFileChanges nstat numstat).map (fun fc => fc.path)
        = nstat.map (fun e => e.path)
          ++ (numstat.filter fun q => ¬ nstat.any (fun e => e.path = q.1)).map
              (fun q => q.1) := by
      unfold mergeFileChanges
      rw [List.map_append, List.map_map, List.map_map]
      rfl
    rw [hshape]
    apply List.Nodup.append hn
    · exact hm.sublist (List.Sublist.map _ (List.filter_sublist _))
    · intro a ha hb
      rw [List.mem_map] at ha hb
      rcases ha with ⟨e, he, rfl⟩
      rcases hb with ⟨q, hq, hpq⟩
      rw [List.mem_filter] at hq
      have : nstat.any (fun x => x.path = q.1) = true :=
        List.any_eq_true.mpr ⟨e, he, by simpa using hpq.symm⟩
      simpa [this] using hq.2
  refine ⟨hpaths, rfl, ?_, rfl, rfl, (sum_map_add_fc fcs).symm⟩
  have := linkFileTouches_length fcs [] hpaths (by intro _ _ e he; simp at he)
  simpa using this

/-- Witness for C3 at concrete inputs (the S1 commit `B` of the spec:
modifies `src/a.py` with 2 adds and 1 del, adds `src/b.py` with 20 adds). -/
theorem C3_witness :
    let nstat : List NameStatusEntry :=
      [{ path := "src/a.py", status := "M", old_path := none },
       { path := "src/b.py", status := "A", old_path := none }]
    let numstat : List (String × ℤ × ℤ) := [("src/a.py", 2, 1), ("src/b.py", 20, 0)]
    let fcs := mergeFileChanges nstat numstat
    let r := mg_link_commit_rollups fcs
    ((fcs.map (fun fc => fc.path)).Nodup
      ∧ r.files_changed = fcs.length
      ∧ (linkFileTouches [] fcs).length = fcs.length
      ∧ r.lines_added = (fcs.map (fun fc => fc.additions)).sum
      ∧ r.lines_deleted = (fcs.map (fun fc => fc.deletions)).sum
      ∧ r.lines_changed = (fcs.map (fun fc => fc.additions + fc.deletions)).sum) :=
  C3_rollup_consistency _ _ (by decide) (by decide)

/-! ## Symbols and CALLS edges (`mg_upsert_calls` lines 485-502,
`mg_resolve_crossfile_calls` lines 755-777)

`mg_upsert_symbols` (lines 447-482) always `MERGE`s the `DECLARES` edge
from exactly `File {path: sym.file_path}` to the symbol, and nothing
else ever creates a `DECLARES` edge; the Cypher pattern
`(File {path:$fp})-[:DECLARES]->(s:Symbol)` is therefore modelled as
`s ∈ syms ∧ s.file_path = fp`.  The trailing
`(Commit)-[:SEES]->(target)` `MERGE` of both statements touches no
claim and is left out of the state. -/

/-- A Symbol node (`key = file_path::name::kind`). -/
structure Sym where
  key : String
  name : String
  file_path : String
  deriving Repr, DecidableEq

/-- A `(File)-[IMPORTS {resolved}]->(File)` edge (file-to-file only;
Module targets never participate in cross-file call resolution). -/
structure ImportEdge where
  src : String
  dst : String
  resolved : Bool
  deriving Repr, DecidableEq

/-- A `(Symbol)-[CALLS {at_line}]->(Symbol)` edge, endpoints by key. -/
structure CallsEdge where
  src : String
  dst : String
  at_line : ℤ
  deriving Repr, DecidableEq

/-- One extracted call record `{name, start_line}`. -/
structure CallRec where
  name : String
  start_line : ℤ
  deriving Repr, DecidableEq

/-- The slice of graph state the two call-upsert statements read and write. -/
structure CallGraph where
  syms : List Sym
  imports : List ImportEdge
  calls : List CallsEdge
  deriving Repr, DecidableEq

/-- Embeds `MERGE (x)-[r:CALLS]->(y)` followed by `SET r.at_line = line`
(`mg_upsert_calls`): update the line of every matching edge, or append
the edge when the pair is absent. -/
def mergeCallSet (edges : List CallsEdge) (src dst : String) (line : ℤ) : List CallsEdge :=
  if edges.any (fun e => e.src = src && e.dst = dst) then
    edges.map fun e =>
      if e.src = src && e.dst = dst then { e with at_line := line } else e
  else edges ++ [{ src := src, dst := dst, at_line := line }]

/-- Embeds `MERGE (x)-[r:CALLS]->(y)` followed by `ON CREATE SET r.at_line`
(`mg_resolve_crossfile_calls`): append only when the pair is absent. -/
def mergeCallOnCreate (edges : List CallsEdge) (src dst : String) (line : ℤ) : List CallsEdge :=
  if edges.any (fun e => e.src = src && e.dst = dst) then edges
  else edges ++ [{ src := src, dst := dst, at_line := line }]

/-- One `UNWIND` row of the `mg_upsert_calls` Cypher (lines 491-502):
every Symbol declared in the file × every Symbol in the same file whose
name equals the callee name. -/
def upsertCallsOne (g : CallGraph) (fp : String) (c : CallRec) : CallGraph :=
  let callers := g.syms.filter (fun s => s.file_path = fp)
  let targets := g.syms.filter (fun t => t.file_path = fp && t.name = c.name)
  let newCalls := callers.foldl
    (fun es caller =>
      targets.foldl (fun es2 t => mergeCallSet es2 caller.key t.key c.start_line) es)
    g.calls
  { g with calls := newCalls }

/-- Embeds `mg_upsert_calls(file_path, lang, sha, calls)`: drop unnamed calls,
then process records in order. -/
def mg_upsert_calls (g : CallGraph) (fp : String) (calls : List CallRec) : CallGraph :=
  (calls.filter (fun c => c.name ≠ "")).foldl (fun g2 c => upsertCallsOne g2 fp c) g

/-- One per-call Cypher run of `mg_resolve_crossfile_calls`
(lines 770-777): callers declared in the file × files imported with
`resolved:true` × symbols of those files with the callee name. -/
def resolveCrossOne (g : CallGraph) (fp : String) (c : CallRec) : CallGraph :=
  let callers := g.syms.filter (fun s => s.file_path = fp)
  let deps := g.imports.filter (fun i => i.src = fp && i.resolved)
  let newCalls := callers.foldl
    (fun es caller =>
      deps.foldl
        (fun es2 imp =>
          (g.syms.filter (fun t => t.file_path = imp.dst && t.name = c.name)).foldl
            (fun es3 t => mergeCallOnCreate es3 caller.key t.key c.start_line) es2)
        es)
    g.calls
  { g with calls := newCalls }

/-- Embeds `mg_resolve_crossfile_calls(caller_file, lang, calls)`. -/
def mg_resolve_crossfile_calls (g : CallGraph) (fp : String) (calls : List CallRec) : CallGraph :=
  (calls.filter (fun c => c.name ≠ "")).foldl (fun g2 c => resolveCrossOne g2 fp c) g

theorem foldl_inv_mem {α β : Type} (P : β → Prop) :
    ∀ (l : List α) (f : β → α → β),
      (∀ b, ∀ a ∈ l, P b → P (f b a)) →
      ∀ b, P b → P (l.foldl f b) := by
  intro l
  induction l with
  | nil => intro f _ b h; exact h
  | cons a t ih =>
    intro f hf b h
    exact ih f (fun b' a' ha' => hf b' a' (List.mem_cons_of_mem _ ha')) (f b a)
      (hf b a (List.mem_cons_self _ _) h)

theorem foldl_estab_mem {α β : Type} (P : β → Prop) :
    ∀ (l : List α) (f : β → α → β),
      (∀ b, ∀ a ∈ l, P b → P (f b a)) →
      ∀ x ∈ l, (∀ b, P (f b x)) →
      ∀ b, P (l.foldl f b) := by
  intro l
  induction l with
  | nil => intro f _ x hx; exact absurd hx (List.not_mem_nil x)
  | cons a t ih =>
    intro f hf x hx hestab b
    rcases List.mem_cons.mp hx with rfl | ht
    · exact foldl_inv_mem P t f (fun b' a' ha' => hf b' a' (List.mem_cons_of_mem _ ha'))
        (f b x) (hestab b)
    · exact ih f (fun b' a' ha' => hf b' a' (List.mem_cons_of_mem _ ha')) x ht hestab (f b a)

theorem mergeCallSet_closure (Q : String → String → Prop)
    (es : List CallsEdge) (src dst : String) (line : ℤ)
    (hes : ∀ e ∈ es, Q e.src e.dst) (hnew : Q src dst) :
    ∀ e ∈ mergeCallSet es src dst line, Q e.src e.dst := by
  intro e he
  unfold mergeCallSet at he
  split at he
  · rw [List.mem_map] at he
    rcases he with ⟨e0, he0, rfl⟩
    split
    · exact hes e0 he0
    · exact hes e0 he0
  · rw [List.mem_append] at he
    rcases he with he | he
    · exact hes e he
    · rcases List.mem_singleton.mp he with rfl
      exact hnew

theorem mergeCallOnCreate_closure (Q : String → String → Prop)
    (es : List CallsEdge) (src dst : String) (line : ℤ)
    (hes : ∀ e ∈ es, Q e.src e.dst) (hnew : Q src dst) :
    ∀ e ∈ mergeCallOnCreate es src dst line, Q e.src e.dst := by
  intro e he
  unfold mergeCallOnCreate at he
  split at he
  · exact hes e he
  · rw [List.mem_append] at he
    rcases he with he | he
    · exact hes e he
    · rcases List.mem_singleton.mp he with rfl
      exact hnew

theorem upsertCallsOne_closure (g3 : CallGraph) (fp : String) (c : CallRec)
    (Q : String → String → Prop)
    (hca : ∀ e ∈ g3.calls, Q e.src e.dst)
    (hnew : ∀ a ∈ g3.syms, ∀ b ∈ g3.syms,
      a.file_path = fp → b.file_path = fp → Q a.key b.key) :
    ∀ e ∈ (upsertCallsOne g3 fp c).calls, Q e.src e.dst := by
  have inner : ∀ caller : Sym, caller ∈ g3.syms.filter (fun s => s.file_path = fp) →
      ∀ es : List CallsEdge, (∀ e ∈ es, Q e.src e.dst) →
      ∀ e ∈ (g3.syms.filter (fun t => t.file_path = fp && t.name = c.name)).foldl
          (fun es2 t => mergeCallSet es2 caller.key t.key c.start_line) es,
        Q e.src e.dst := by
    intro caller hcaller es hes
    refine foldl_inv_mem (fun es2 : List CallsEdge => ∀ e ∈ es2, Q e.src e.dst) _ _ ?_ _ hes
    intro es2 t ht hes2
    rw [List.mem_filter] at hcaller ht
    apply mergeCallSet_closure Q es2 caller.key t.key c.start_line hes2
    have h1 : caller.file_path = fp := by simpa using hcaller.2
    have ht2 := ht.2
    simp only [Bool.and_eq_true, decide_eq_true_eq] at ht2
    exact hnew caller hcaller.1 t ht.1 h1 ht2.1
  show ∀ e ∈ (g3.syms.filter (fun s => s.file_path = fp)).foldl
      (fun es caller =>
        (g3.syms.filter (fun t => t.file_path = fp && t.name = c.name)).foldl
          (fun es2 t => mergeCallSet es2 caller.key t.key c.start_line) es)
      g3.calls, Q e.src e.dst
  refine foldl_inv_mem (fun es : List CallsEdge => ∀ e ∈ es, Q e.src e.dst) _ _ ?_ _ hca
  intro es caller hcaller hes
  exact inner caller hcaller es hes

theorem mg_upsert_calls_edge_origin (g : CallGraph) (fp : String) (calls : List CallRec) :
    ∀ e ∈ (mg_upsert_calls g fp calls).calls,
      (∃ e0 ∈ g.calls, e0.src = e.src ∧ e0.dst = e.dst)
      ∨ (∃ a ∈ g.syms, ∃ b ∈ g.syms,
          a.key = e.src ∧ b.key = e.dst ∧ a.file_path = fp ∧ b.file_path = fp) := by
  have main : (mg_upsert_calls g fp calls).syms = g.syms ∧
      ∀ e ∈ (mg_upsert_calls g fp calls).calls,
        (∃ e0 ∈ g.calls, e0.src = e.src ∧ e0.dst = e.dst)
        ∨ (∃ a ∈ g.syms, ∃ b ∈ g.syms,
            a.key = e.src ∧ b.key = e.dst ∧ a.file_path = fp ∧ b.file_path = fp) := by
    show (fun g2 : CallGraph => g2.syms = g.syms ∧
        ∀ e ∈ g2.calls,
          (∃ e0 ∈ g.calls, e0.src = e.src ∧ e0.dst = e.dst)
          ∨ (∃ a ∈ g.syms, ∃ b ∈ g.syms,
              a.key = e.src ∧ b.key = e.dst ∧ a.file_path = fp ∧ b.file_path = fp))
      ((calls.filter (fun c => c.name ≠ "")).foldl (fun g2 c => upsertCallsOne g2 fp c) g)
    refine foldl_inv_mem
      (fun g2 : CallGraph => g2.syms = g.syms ∧
        ∀ e ∈ g2.calls,
          (∃ e0 ∈ g.calls, e0.src = e.src ∧ e0.dst = e.dst)
          ∨ (∃ a ∈ g.syms, ∃ b ∈ g.syms,
              a.key = e.src ∧ b.key = e.dst ∧ a.file_path = fp ∧ b.file_path = fp))
      _ _ ?_ _ ⟨rfl, fun e he => Or.inl ⟨e, he, rfl, rfl⟩⟩
    intro g2 c _ h
    refine ⟨h.1, ?_⟩
    apply upsertCallsOne_closure g2 fp c
      (fun s d =>
        (∃ e0 ∈ g.calls, e0.src = s ∧ e0.dst = d)
        ∨ (∃ a ∈ g.syms, ∃ b ∈ g.syms,
            a.key = s ∧ b.key = d ∧ a.file_path = fp ∧ b.file_path = fp))
      h.2
    intro a ha b hb hafp hbfp
    rw [h.1] at ha hb
    exact Or.inr ⟨a, ha, b, hb, rfl, rfl, hafp, hbfp⟩
  exact main.2

theorem resolveCrossOne_closure (g3 : CallGraph) (fp : String) (c : CallRec)
    (Q : String → String → Prop)
    (hca : ∀ e ∈ g3.calls, Q e.src e.dst)
    (hnew : ∀ a ∈ g3.syms, ∀ i ∈ g3.imports, ∀ t ∈ g3.syms,
      a.file_path = fp → i.src = fp → i.resolved = true → t.file_path = i.dst →
      Q a.key t.key) :
    ∀ e ∈ (resolveCrossOne g3 fp c).calls, Q e.src e.dst := by
  have innermost : ∀ caller : Sym, caller ∈ g3.syms.filter (fun s => s.file_path = fp) →
      ∀ imp : ImportEdge, imp ∈ g3.imports.filter (fun i => i.src = fp && i.resolved) →
      ∀ es2 : List CallsEdge, (∀ e ∈ es2, Q e.src e.dst) →
      ∀ e ∈ (g3.syms.filter (fun t => t.file_path = imp.dst && t.name = c.name)).foldl
          (fun es3 t => mergeCallOnCreate es3 caller.key t.key c.start_line) es2,
        Q e.src e.dst := by
    intro caller hcaller imp himp es2 hes2
    refine foldl_inv_mem (fun es3 : List CallsEdge => ∀ e ∈ es3, Q e.src e.dst) _ _ ?_ _ hes2
    intro es3 t ht hes3
    rw [List.mem_filter] at hcaller himp ht
    apply mergeCallOnCreate_closure Q es3 caller.key t.key c.start_line hes3
    have h1 : caller.file_path = fp := by simpa using hcaller.2
    have h2 := himp.2
    simp only [Bool.and_eq_true, decide_eq_true_eq] at h2
    have h3 := ht.2
    simp only [Bool.and_eq_true, decide_eq_true_eq] at h3
    exact hnew caller hcaller.1 imp himp.1 t ht.1 h1 h2.1 h2.2 h3.1
  have inner : ∀ caller : Sym, caller ∈ g3.syms.filter (fun s => s.file_path = fp) →
      ∀ es : List CallsEdge, (∀ e ∈ es, Q e.src e.dst) →
      ∀ e ∈ (g3.imports.filter (fun i => i.src = fp && i.resolved)).foldl
          (fun es2 imp =>
            (g3.syms.filter (fun t => t.file_path = imp.dst && t.name = c.name)).foldl
              (fun es3 t => mergeCallOnCreate es3 caller.key t.key c.start_line) es2)
          es,
        Q e.src e.dst := by
    intro caller hcaller es hes
    refine foldl_inv_mem (fun es2 : List CallsEdge => ∀ e ∈ es2, Q e.src e.dst) _ _ ?_ _ hes
    intro es2 imp himp hes2
    exact innermost caller hcaller imp himp es2 hes2
  show ∀ e ∈ (g3.syms.filter (fun s => s.file_path = fp)).foldl
      (fun es caller =>
        (g3.imports.filter (fun i => i.src = fp && i.resolved)).foldl
          (fun es2 imp =>
            (g3.syms.filter (fun t => t.file_path = imp.dst && t.name = c.name)).foldl
              (fun es3 t => mergeCallOnCreate es3 caller.key t.key c.start_line) es2)
          es)
      g3.calls, Q e.src e.dst
  refine foldl_inv_mem (fun es : List CallsEdge => ∀ e ∈ es, Q e.src e.dst) _ _ ?_ _ hca
  intro es caller hcaller hes
  exact inner caller hcaller es hes

theorem mg_resolve_crossfile_calls_edge_origin (g : CallGraph) (fp : String)
    (calls : List CallRec) :
    ∀ e ∈ (mg_resolve_crossfile_calls g fp calls).calls,
      (∃ e0 ∈ g.calls, e0.src = e.src ∧ e0.dst = e.dst)
      ∨ (∃ a ∈ g.syms, ∃ b ∈ g.syms, ∃ i ∈ g.imports,
          a.key = e.src ∧ b.key = e.dst ∧ a.file_path = fp
          ∧ i.src = a.file_path ∧ i.dst = b.file_path ∧ i.resolved = true) := by
  have main : (mg_resolve_crossfile_calls g fp calls).syms = g.syms ∧
      (mg_resolve_crossfile_calls g fp calls).imports = g.imports ∧
      ∀ e ∈ (mg_resolve_crossfile_calls g fp calls).calls,
        (∃ e0 ∈ g.calls, e0.src = e.src ∧ e0.dst = e.dst)
        ∨ (∃ a ∈ g.syms, ∃ b ∈ g.syms, ∃ i ∈ g.imports,
            a.key = e.src ∧ b.key = e.dst ∧ a.file_path = fp
            ∧ i.src = a.file_path ∧ i.dst = b.file_path ∧ i.resolved = true) := by
    show (fun g2 : CallGraph =>
        g2.syms = g.syms ∧ g2.imports = g.imports ∧
        ∀ e ∈ g2.calls,
          (∃ e0 ∈ g.calls, e0.src = e.src ∧ e0.dst = e.dst)
          ∨ (∃ a ∈ g.syms, ∃ b ∈ g.syms, ∃ i ∈ g.imports,
              a.key = e.src ∧ b.key = e.dst ∧ a.file_path = fp
              ∧ i.src = a.file_path ∧ i.dst = b.file_path ∧ i.resolved = true))
      ((calls.filter (fun c => c.name ≠ "")).foldl (fun g2 c => resolveCrossOne g2 fp c) g)
    refine foldl_inv_mem
      (fun g2 : CallGraph =>
        g2.syms = g.syms ∧ g2.imports = g.imports ∧
        ∀ e ∈ g2.calls,
          (∃ e0 ∈ g.calls, e0.src = e.src ∧ e0.dst = e.dst)
          ∨ (∃ a ∈ g.syms, ∃ b ∈ g.syms, ∃ i ∈ g.imports,
              a.key = e.src ∧ b.key = e.dst ∧ a.file_path = fp
              ∧ i.src = a.file_path ∧ i.dst = b.file_path ∧ i.resolved = true))
      _ _ ?_ _ ⟨rfl, rfl, fun e he => Or.inl ⟨e, he, rfl, rfl⟩⟩
    intro g2 c _ h
    refine ⟨h.1, h.2.1, ?_⟩
    apply resolveCrossOne_closure g2 fp c
      (fun s d =>
        (∃ e0 ∈ g.calls, e0.src = s ∧ e0.dst = d)
        ∨ (∃ a ∈ g.syms, ∃ b ∈ g.syms, ∃ i ∈ g.imports,
            a.key = s ∧ b.key = d ∧ a.file_path = fp
            ∧ i.src = a.file_path ∧ i.dst = b.file_path ∧ i.resolved = true))
      h.2.2
    intro a ha i hi t ht hafp hisrc hires htfp
    rw [h.1] at ha ht
    rw [h.2.1] at hi
    exact Or.inr ⟨a, ha, t, ht, i, hi, rfl, rfl, hafp, by rw [hafp, hisrc], htfp.symm, hires⟩
  exact main.2.2

/-- C5. Every CALLS edge in the graph after either call-upsert operation
either already existed (as a source-target pair) or was created with
both endpoints Symbols: for `mg_upsert_calls` both endpoints are
declared in the same file (the intra-file statement imposes no import
condition), and for `mg_resolve_crossfile_calls` the new edge's source
file has an `IMPORTS` edge with `resolved = true` to the target
symbol's file. -/
theorem C5_calls_edge_safety (g : CallGraph) (fp : String) (calls : List CallRec) :
    (∀ e ∈ (mg_upsert_calls g fp calls).calls,
      (∃ e0 ∈ g.calls, e0.src = e.src ∧ e0.dst = e.dst)
      ∨ (∃ a ∈ g.syms, ∃ b ∈ g.syms,
          a.key = e.src ∧ b.key = e.dst ∧ a.file_path = fp ∧ b.file_path = fp))
    ∧ (∀ e ∈ (mg_resolve_crossfile_calls g fp calls).calls,
      (∃ e0 ∈ g.calls, e0.src = e.src ∧ e0.dst = e.dst)
      ∨ (∃ a ∈ g.syms, ∃ b ∈ g.syms, ∃ i ∈ g.imports,
          a.key = e.src ∧ b.key = e.dst ∧ a.file_path = fp
          ∧ i.src = a.file_path ∧ i.dst = b.file_path ∧ i.resolved = true)) :=
  ⟨mg_upsert_calls_edge_origin g fp calls,
   mg_resolve_crossfile_calls_edge_origin g fp calls⟩

/-- Graph used by the C5 witness: `f` declared in `A.py`, `g` declared
in `B.py`, and a resolved import from `A.py` to `B.py`. -/
def c5WitnessGraph : CallGraph :=
  { syms := [{ key := "A.py::f::Function", name := "f", file_path := "A.py" },
             { key := "B.py::g::Function", name := "g", file_path := "B.py" }]
    imports := [{ src := "A.py", dst := "B.py", resolved := true }]
    calls := [] }

/-- Witness for C5: the cross-file edge created by resolving a call to
`g` from `A.py` satisfies the resolved-import condition. -/
theorem C5_witness :
    (∃ e0 ∈ c5WitnessGraph.calls,
        e0.src = "A.py::f::Function" ∧ e0.dst = "B.py::g::Function")
    ∨ (∃ a ∈ c5WitnessGraph.syms, ∃ b ∈ c5WitnessGraph.syms, ∃ i ∈ c5WitnessGraph.imports,
        a.key = "A.py::f::Function" ∧ b.key = "B.py::g::Function" ∧ a.file_path = "A.py"
        ∧ i.src = a.file_path ∧ i.dst = b.file_path ∧ i.resolved = true) :=
  (C5_calls_edge_safety c5WitnessGraph "A.py" [{ name := "g", start_line := 4 }]).2
    { src := "A.py::f::Function", dst := "B.py::g::Function", at_line := 4 } (by decide)

/-! ## C10: fan-out and `at_line` overwrite of `mg_upsert_calls` -/

/-- The (caller, target) pair has at least one CALLS edge and every such
edge carries `at_line = L`. -/
def pairSet (es : List CallsEdge) (ak bk : String) (L : ℤ) : Prop :=
  (∀ e ∈ es, e.src = ak → e.dst = bk → e.at_line = L)
  ∧ (∃ e ∈ es, e.src = ak ∧ e.dst = bk)

theorem mergeCallSet_pair_estab (es : List CallsEdge) (ak bk : String) (L : ℤ) :
    pairSet (mergeCallSet es ak bk L) ak bk L := by
  unfold pairSet mergeCallSet
  split
  case isTrue hany =>
    rcases List.any_eq_true.mp hany with ⟨e0, he0, hc0⟩
    simp only [Bool.and_eq_true, decide_eq_true_eq] at hc0
    constructor
    · intro e he
      rw [List.mem_map] at he
      rcases he with ⟨e1, he1, rfl⟩
      by_cases hc : e1.src = ak ∧ e1.dst = bk
      · rw [if_pos (show (e1.src = ak && e1.dst = bk) = true by simp [hc.1, hc.2])]
        intro _ _; rfl
      · rw [if_neg (show ¬(e1.src = ak && e1.dst = bk) = true by simpa using hc)]
        intro hs hd
        exact absurd ⟨hs, hd⟩ hc
    · refine ⟨{ e0 with at_line := L }, List.mem_map.mpr ⟨e0, he0, ?_⟩, hc0.1, hc0.2⟩
      rw [if_pos (show (e0.src = ak && e0.dst = bk) = true by simp [hc0.1, hc0.2])]
  case isFalse hany =>
    have hnone : ∀ e ∈ es, ¬(e.src = ak ∧ e.dst = bk) := by
      intro e he hc
      exact hany (List.any_eq_true.mpr ⟨e, he, by simp [hc.1, hc.2]⟩)
    constructor
    · intro e he
      rw [List.mem_append] at he
      rcases he with he | he
      · intro hs hd; exact absurd ⟨hs, hd⟩ (hnone e he)
      · rcases List.mem_singleton.mp he with rfl
        intro _ _; rfl
    · exact ⟨{ src := ak, dst := bk, at_line := L },
        List.mem_append.mpr (Or.inr (List.mem_singleton_self _)), rfl, rfl⟩

theorem mergeCallSet_pair_pres (es : List CallsEdge) (s d ak bk : String) (L line : ℤ)
    (hline : s = ak → d = bk → line = L)
    (h : pairSet es ak bk L) : pairSet (mergeCallSet es s d line) ak bk L := by
  unfold pairSet mergeCallSet
  split
  case isTrue hany =>
    constructor
    · intro e he
      rw [List.mem_map] at he
      rcases he with ⟨e1, he1, rfl⟩
      by_cases hc : e1.src = s ∧ e1.dst = d
      · rw [if_pos (show (e1.src = s && e1.dst = d) = true by simp [hc.1, hc.2])]
        intro hs hd
        have h1 : e1.src = ak := hs
        have h2 : e1.dst = bk := hd
        exact hline (hc.1.symm.trans h1) (hc.2.symm.trans h2)
      · rw [if_neg (show ¬(e1.src = s && e1.dst = d) = true by simpa using hc)]
        exact h.1 e1 he1
    · rcases h.2 with ⟨e0, he0, h01, h02⟩
      by_cases hc : e0.src = s ∧ e0.dst = d
      · refine ⟨{ e0 with at_line := line }, List.mem_map.mpr ⟨e0, he0, ?_⟩, h01, h02⟩
        rw [if_pos (show (e0.src = s && e0.dst = d) = true by simp [hc.1, hc.2])]
      · refine ⟨e0, List.mem_map.mpr ⟨e0, he0, ?_⟩, h01, h02⟩
        rw [if_neg (show ¬(e0.src = s && e0.dst = d) = true by simpa using hc)]
  case isFalse hany =>
    constructor
    · intro e he
      rw [List.mem_append] at he
      rcases he with he | he
      · exact h.1 e he
      · rcases List.mem_singleton.mp he with rfl
        intro hs hd
        exact hline hs hd
    · rcases h.2 with ⟨e0, he0, h01, h02⟩
      exact ⟨e0, List.mem_append.mpr (Or.inl he0), h01, h02⟩

theorem upsertCallsOne_pair_estab (g1 : CallGraph) (fp : String) (c : CallRec)
    (a b : Sym) (ha : a ∈ g1.syms) (hafp : a.file_path = fp)
    (hb : b ∈ g1.syms) (hbfp : b.file_path = fp) (hbn : b.name = c.name) :
    pairSet (upsertCallsOne g1 fp c).calls a.key b.key c.start_line := by
  show pairSet ((g1.syms.filter (fun s => s.file_path = fp)).foldl
      (fun es caller =>
        (g1.syms.filter (fun t => t.file_path = fp && t.name = c.name)).foldl
          (fun es2 t => mergeCallSet es2 caller.key t.key c.start_line) es)
      g1.calls) a.key b.key c.start_line
  have hamem : a ∈ g1.syms.filter (fun s => s.file_path = fp) :=
    List.mem_filter.mpr ⟨ha, by simp [hafp]⟩
  have hbmem : b ∈ g1.syms.filter (fun t => t.file_path = fp && t.name = c.name) :=
    List.mem_filter.mpr ⟨hb, by simp [hbfp, hbn]⟩
  have hpres_inner : ∀ (caller : Sym) (es : List CallsEdge),
      pairSet es a.key b.key c.start_line →
      pairSet ((g1.syms.filter (fun t => t.file_path = fp && t.name = c.name)).foldl
        (fun es2 t => mergeCallSet es2 caller.key t.key c.start_line) es)
        a.key b.key c.start_line := by
    intro caller es hes
    refine foldl_inv_mem
      (fun es2 : List CallsEdge => pairSet es2 a.key b.key c.start_line) _ _ ?_ _ hes
    intro es2 t _ hes2
    exact mergeCallSet_pair_pres es2 caller.key t.key a.key b.key
      c.start_line c.start_line (fun _ _ => rfl) hes2
  refine foldl_estab_mem
    (fun es : List CallsEdge => pairSet es a.key b.key c.start_line) _ _ ?_ a hamem ?_ _
  · intro es caller _ hes
    exact hpres_inner caller es hes
  · intro es
    refine foldl_estab_mem
      (fun es2 : List CallsEdge => pairSet es2 a.key b.key c.start_line) _ _ ?_ b hbmem ?_ _
    · intro es2 t _ hes2
      exact mergeCallSet_pair_pres es2 a.key t.key a.key b.key
        c.start_line c.start_line (fun _ _ => rfl) hes2
    · intro es2
      exact mergeCallSet_pair_estab es2 a.key b.key c.start_line

theorem upsertCallsOne_pair_pres (g1 : CallGraph) (fp : String) (c' : CallRec)
    (a b : Sym) (hkeys : (g1.syms.map (fun s => s.key)).Nodup)
    (hb : b ∈ g1.syms) (hbn : b.name ≠ c'.name) (L : ℤ)
    (h : pairSet g1.calls a.key b.key L) :
    pairSet (upsertCallsOne g1 fp c').calls a.key b.key L := by
  show pairSet ((g1.syms.filter (fun s => s.file_path = fp)).foldl
      (fun es caller =>
        (g1.syms.filter (fun t => t.file_path = fp && t.name = c'.name)).foldl
          (fun es2 t => mergeCallSet es2 caller.key t.key c'.start_line) es)
      g1.calls) a.key b.key L
  refine foldl_inv_mem (fun es : List CallsEdge => pairSet es a.key b.key L) _ _ ?_ _ h
  intro es caller _ hes
  refine foldl_inv_mem (fun es2 : List CallsEdge => pairSet es2 a.key b.key L) _ _ ?_ _ hes
  intro es2 t ht hes2
  apply mergeCallSet_pair_pres es2 caller.key t.key a.key b.key L c'.start_line ?_ hes2
  intro _ hd
  rw [List.mem_filter] at ht
  have ht2 := ht.2
  simp only [Bool.and_eq_true, decide_eq_true_eq] at ht2
  have hteq : t = b := List.inj_on_of_nodup_map hkeys ht.1 hb hd
  exact absurd (hteq ▸ ht2.2) hbn

/-- C10 (implicit). For an extracted call with non-empty name `N`
(modelled as the last call record with that name in the processed
list), `mg_upsert_calls` creates a CALLS edge from every Symbol
declared in the file to every Symbol named `N` declared in the file —
not only from the symbol containing the call site — and after the run
every such edge carries `at_line` equal to that call's start line,
overwriting any previously stored value. -/
theorem C10_intra_file_call_fanout (g : CallGraph) (fp : String)
    (pre post : List CallRec) (c : CallRec)
    (hkeys : (g.syms.map (fun s => s.key)).Nodup)
    (hcname : c.name ≠ "")
    (hlast : ∀ c' ∈ post, c'.name ≠ c.name)
    (a b : Sym) (ha : a ∈ g.syms) (hafp : a.file_path = fp)
    (hb : b ∈ g.syms) (hbfp : b.file_path = fp) (hbn : b.name = c.name) :
    (∃ e ∈ (mg_upsert_calls g fp (pre ++ c :: post)).calls,
        e.src = a.key ∧ e.dst = b.key)
    ∧ ∀ e ∈ (mg_upsert_calls g fp (pre ++ c :: post)).calls,
        e.src = a.key → e.dst = b.key → e.at_line = c.start_line := by
  have hfilter : (pre ++ c :: post).filter (fun x => x.name ≠ "")
      = (pre.filter (fun x => x.name ≠ "")) ++ c :: (post.filter (fun x => x.name ≠ "")) := by
    rw [List.filter_append, List.filter_cons]
    simp [hcname]
  have hmain : pairSet (mg_upsert_calls g fp (pre ++ c :: post)).calls
      a.key b.key c.start_line := by
    show pairSet ((((pre ++ c :: post).filter (fun x => x.name ≠ "")).foldl
        (fun g2 x => upsertCallsOne g2 fp x) g).calls) a.key b.key c.start_line
    rw [hfilter, List.foldl_append, List.foldl_cons]
    set g1 : CallGraph :=
      (pre.filter (fun x => x.name ≠ "")).foldl (fun g2 x => upsertCallsOne g2 fp x) g
      with hg1def
    have hg1syms : g1.syms = g.syms := by
      rw [hg1def]
      refine foldl_inv_mem (fun g2 : CallGraph => g2.syms = g.syms) _ _ ?_ _ rfl
      intro g2 x _ hs
      exact hs
    have hestab : pairSet (upsertCallsOne g1 fp c).calls a.key b.key c.start_line := by
      apply upsertCallsOne_pair_estab g1 fp c a b
      · rw [hg1syms]; exact ha
      · exact hafp
      · rw [hg1syms]; exact hb
      · exact hbfp
      · exact hbn
    have hstart : (upsertCallsOne g1 fp c).syms = g.syms := hg1syms
    have hpost := foldl_inv_mem
      (fun g2 : CallGraph => g2.syms = g.syms ∧ pairSet g2.calls a.key b.key c.start_line)
      (post.filter (fun x => x.name ≠ "")) (fun g2 x => upsertCallsOne g2 fp x)
      ?_ (upsertCallsOne g1 fp c) ⟨hstart, hestab⟩
    · exact hpost.2
    · intro g2 x hx hinv
      refine ⟨hinv.1, ?_⟩
      apply upsertCallsOne_pair_pres g2 fp x a b ?_ ?_ ?_ _ hinv.2
      · rw [hinv.1]; exact hkeys
      · rw [hinv.1]; exact hb
      · intro hh
        exact hlast x (List.mem_of_mem_filter hx) (hh.symm.trans hbn)
  exact ⟨hmain.2, hmain.1⟩

/-- Graph used by the C10 witness: `f` and `g` declared in `F.py`, and a
pre-existing `f → g` CALLS edge with stale `at_line = 99`. -/
def c10WitnessGraph : CallGraph :=
  { syms := [{ key := "F.py::f::Function", name := "f", file_path := "F.py" },
             { key := "F.py::g::Function", name := "g", file_path := "F.py" }]
    imports := []
    calls := [{ src := "F.py::f::Function", dst := "F.py::g::Function", at_line := 99 }] }

/-- Witness for C10: upserting the call `g` at line 5 connects every
declared symbol to `g` (including the self-loop on `g`) and overwrites
the stale `at_line = 99` with 5. -/
theorem C10_witness :
    ((∃ e ∈ (mg_upsert_calls c10WitnessGraph "F.py"
          ([] ++ { name := "g", start_line := 5 } :: [])).calls,
        e.src = "F.py::f::Function" ∧ e.dst = "F.py::g::Function")
      ∧ ∀ e ∈ (mg_upsert_calls c10WitnessGraph "F.py"
          ([] ++ { name := "g", start_line := 5 } :: [])).calls,
          e.src = "F.py::f::Function" → e.dst = "F.py::g::Function" → e.at_line = 5) :=
  C10_intra_file_call_fanout c10WitnessGraph "F.py" [] [] { name := "g", start_line := 5 }
    (by decide) (by decide) (fun c' hc' => absurd hc' (List.not_mem_nil c'))
    ({ key := "F.py::f::Function", name := "f", file_path := "F.py" } : Sym)
    ({ key := "F.py::g::Function", name := "g", file_path := "F.py" } : Sym)
    (by decide) rfl (by decide) rfl rfl

/-! ## Dependency upserts (`mg_upsert_dependencies` lines 681-714)

For each dep `{ecosystem, name, version}` the loop body first runs

```
MATCH (prc:Commit)-[pu:UPDATES_DEP]->(dep:Dependency {ecosystem:$eco, name:$name})
WHERE prc.committed_at < $t
RETURN pu.version AS v ORDER BY prc.committed_at DESC LIMIT 1
```

— note the pattern does not constrain `prc` to any Branch — and then
`MERGE`s the `(c)-[u:UPDATES_DEP]->(dep)` edge (guarded by
`MATCH (c:Commit {sha:$sha})`), setting `version`, `prev_version`
(`(prev["v"] if prev else None) or ""`) and `is_major_bump`.
`ORDER BY ... DESC LIMIT 1` returns a row of maximal `committed_at`;
the model picks one such row deterministically. -/

/-- A Commit node (the attributes the dependency query reads). -/
structure CommitNode where
  sha : String
  committed_at : ℤ
  deriving Repr, DecidableEq

/-- A `(Commit)-[UPDATES_DEP]->(Dependency)` edge, keyed by
`(sha, ecosystem, name)`. -/
structure UpdEdge where
  sha : String
  ecosystem : String
  name : String
  version : String
  prev_version : String
  is_major_bump : Bool
  deriving Repr, DecidableEq

/-- A manifest dependency record `{ecosystem, name, version}`. -/
structure DepRec where
  ecosystem : String
  name : String
  version : String
  deriving Repr, DecidableEq

/-- The slice of graph state the dependency upsert reads and writes;
`branchCommits` holds the `(Branch)-[HAS_COMMIT]->(Commit)` edges as
`(branch id, sha)` pairs (the code never consults them here). -/
structure DepGraph where
  commits : List CommitNode
  branchCommits : List (String × String)
  updates : List UpdEdge
  deriving Repr, DecidableEq

/-- Rows of the prev-version query: every `UPDATES_DEP` edge onto the
dependency joined with its commit node, kept when `committed_at < t`.
No branch constraint appears in the Cypher. -/
def prevCandidates (g : DepGraph) (eco nm : String) (t : ℤ) : List (ℤ × String) :=
  (g.updates.filter (fun u => u.ecosystem = eco && u.name = nm)).flatMap
    (fun u => (g.commits.filter (fun cm => cm.sha = u.sha && cm.committed_at < t)).map
      (fun cm => (cm.committed_at, u.version)))

/-- Embeds `ORDER BY prc.committed_at DESC LIMIT 1`: a row of maximal
`committed_at`, or `none` on an empty result. -/
def pickLatest : List (ℤ × String) → Option (ℤ × String)
  | [] => none
  | c :: rest =>
    match pickLatest rest with
    | none => some c
    | some best => if best.1 ≤ c.1 then some c else some best

/-- Embeds `MERGE (c)-[u:UPDATES_DEP]->(dep)` + `SET`: update every edge with
the identity `(sha, ecosystem, name)`, or append it. -/
def mergeUpdEdge (updates : List UpdEdge) (e : UpdEdge) : List UpdEdge :=
  if updates.any (fun u => u.sha = e.sha && u.ecosystem = e.ecosystem && u.name = e.name) then
    updates.map fun u =>
      if u.sha = e.sha && u.ecosystem = e.ecosystem && u.name = e.name then
        { u with version := e.version, prev_version := e.prev_version
                 is_major_bump := e.is_major_bump }
      else u
  else updates ++ [e]

/-- Embeds `prev_ver = (prev["v"] if prev else None) or ""` (line 702). -/
def depPrevVersion (g : DepGraph) (eco nm : String) (t : ℤ) : String :=
  ((pickLatest (prevCandidates g eco nm t)).map (fun c => c.2)).getD ""

/-- The edge written for one dep: `SET u.version = $ver,
u.prev_version = $prev, u.is_major_bump = $major` (lines 711-714). -/
def newUpdEdge (g : DepGraph) (sha : String) (t_now : ℤ) (d : DepRec) : UpdEdge :=
  { sha := sha, ecosystem := d.ecosystem, name := d.name
    version := d.version
    prev_version := depPrevVersion g d.ecosystem d.name t_now
    is_major_bump :=
      is_major_bump_value (depPrevVersion g d.ecosystem d.name t_now) d.version }

/-- The loop body of `mg_upsert_dependencies` (lines 692-714) for one
dep: look up the previous version, compute the bump flag, and `MERGE`
the edge (a no-op when the Commit node is absent, since the second
statement `MATCH`es it). -/
def upsertOneDep (g : DepGraph) (sha : String) (t_now : ℤ) (d : DepRec) : DepGraph :=
  if g.commits.any (fun cm => cm.sha = sha) then
    { g with updates := mergeUpdEdge g.updates (newUpdEdge g sha t_now d) }
  else g

/-- Embeds `mg_upsert_dependencies(repo_id, branch, commit_meta, deps)`: the
per-dep loop, each iteration querying the state left by the previous
one; `sha` and `t_now` come from `commit_meta`. -/
def mg_upsert_dependencies (g : DepGraph) (sha : String) (t_now : ℤ)
    (deps : List DepRec) : DepGraph :=
  deps.foldl (fun g2 d => upsertOneDep g2 sha t_now d) g

/-- Modelled from the spec's words (invariant 5), for comparison with
the code: the candidate rows restricted to commits on the given branch
(`HAS_COMMIT` edge from the branch). -/
def sameBranchPrevCandidates (g : DepGraph) (bid eco nm : String) (t : ℤ) :
    List (ℤ × String) :=
  (g.updates.filter (fun u => u.ecosystem = eco && u.name = nm)).flatMap
    (fun u => (g.commits.filter (fun cm =>
        cm.sha = u.sha && cm.committed_at < t
          && g.branchCommits.any (fun bc => bc.1 = bid && bc.2 = u.sha))).map
      (fun cm => (cm.committed_at, u.version)))

/-- Embeds `pu.version` of the written edge keyed `(sha, eco, name)`. -/
def findUpd (updates : List UpdEdge) (sha eco nm : String) : Option UpdEdge :=
  updates.find? (fun u => u.sha = sha && u.ecosystem = eco && u.name = nm)

/-- Dependency `react` was updated by commit `p1` (time 10, version
1.0.0) on branch `r#main` and by commit `p2` (time 20, version 2.0.0)
on branch `r#other`; commit `c3` (time 30) on `r#main` now updates it
to 3.0.0. -/
def c1Graph : DepGraph :=
  { commits := [{ sha := "p1", committed_at := 10 },
                { sha := "p2", committed_at := 20 },
                { sha := "c3", committed_at := 30 }]
    branchCommits := [("r#main", "p1"), ("r#other", "p2"), ("r#main", "c3")]
    updates := [{ sha := "p1", ecosystem := "npm", name := "react", version := "1.0.0"
                  prev_version := "", is_major_bump := false },
                { sha := "p2", ecosystem := "npm", name := "react", version := "2.0.0"
                  prev_version := "", is_major_bump := false }] }

/-- Counterexample to C1 as stated: ingesting `c3` on branch `r#main`
records `prev_version = "2.0.0"` — the version of the most recent
earlier commit on ANY branch — while the most recent earlier commit on
the same branch carries version `"1.0.0"`. -/
theorem C1_counterexample :
    ((findUpd (mg_upsert_dependencies c1Graph "c3" 30
        [{ ecosystem := "npm", name := "react", version := "3.0.0" }]).updates
        "c3" "npm" "react").map (fun e => e.prev_version) = some "2.0.0")
    ∧ sameBranchPrevCandidates c1Graph "r#main" "npm" "react" 30 = [(10, "1.0.0")]
    ∧ ("2.0.0" : String) ≠ "1.0.0" := by
  decide

theorem pickLatest_spec (cands : List (ℤ × String)) :
    (cands = [] ∧ pickLatest cands = none)
    ∨ (∃ cand, pickLatest cands = some cand ∧ cand ∈ cands
        ∧ ∀ other ∈ cands, other.1 ≤ cand.1) := by
  induction cands with
  | nil => exact Or.inl ⟨rfl, rfl⟩
  | cons c rest ih =>
    right
    rcases ih with ⟨hnil, hnone⟩ | ⟨best, hbest, hmem, hmax⟩
    · subst hnil
      refine ⟨c, ?_, List.mem_singleton_self c, ?_⟩
      · simp [pickLatest]
      · intro other hother
        rcases List.mem_singleton.mp hother with rfl
        exact le_refl _
    · by_cases hle : best.1 ≤ c.1
      · refine ⟨c, ?_, List.mem_cons_self _ _, ?_⟩
        · simp [pickLatest, hbest, hle]
        · intro other hother
          rcases List.mem_cons.mp hother with rfl | h
          · exact le_refl _
          · exact (hmax other h).trans hle
      · refine ⟨best, ?_, List.mem_cons_of_mem _ hmem, ?_⟩
        · simp [pickLatest, hbest, hle]
        · intro other hother
          rcases List.mem_cons.mp hother with rfl | h
          · exact le_of_not_le hle
          · exact hmax other h

theorem find?_append_of_none {α : Type} (p : α → Bool) (l1 l2 : List α)
    (h : ∀ x ∈ l1, p x = false) : (l1 ++ l2).find? p = l2.find? p := by
  induction l1 with
  | nil => rfl
  | cons a t ih =>
    rw [List.cons_append, List.find?_cons_of_neg]
    · exact ih (fun x hx => h x (List.mem_cons_of_mem _ hx))
    · simp [h a (List.mem_cons_self _ _)]

/-- C1 amended. The `prev_version` written for a dependency is the
version from a most recent earlier commit (by `committed_at`) that
touched the same Dependency on ANY branch of the store — the Cypher
query carries no branch restriction — or the empty string if no such
commit exists.  Stated for the per-dep loop body at the state it
observes, for a commit present in the graph whose edge to the
dependency does not yet exist. -/
theorem C1_prev_version_latest_any_branch (g : DepGraph) (sha : String)
    (t_now : ℤ) (d : DepRec)
    (hc : g.commits.any (fun cm => cm.sha = sha) = true)
    (hnew : ∀ u ∈ g.updates,
      ¬(u.sha = sha ∧ u.ecosystem = d.ecosystem ∧ u.name = d.name)) :
    ∃ e, findUpd (upsertOneDep g sha t_now d).updates sha d.ecosystem d.name = some e
      ∧ e.version = d.version
      ∧ e.is_major_bump = is_major_bump_value e.prev_version d.version
      ∧ ((prevCandidates g d.ecosystem d.name t_now = [] ∧ e.prev_version = "")
         ∨ (∃ cand ∈ prevCandidates g d.ecosystem d.name t_now,
              e.prev_version = cand.2
              ∧ ∀ other ∈ prevCandidates g d.ecosystem d.name t_now,
                  other.1 ≤ cand.1)) := by
  have hfalse : ∀ u ∈ g.updates,
      (u.sha = sha && u.ecosystem = d.ecosystem && u.name = d.name) = false := by
    intro u hu
    rw [Bool.eq_false_iff]
    intro hp
    simp only [Bool.and_eq_true, decide_eq_true_eq] at hp
    exact hnew u hu ⟨hp.1.1, hp.1.2, hp.2⟩
  have hany : (g.updates.any (fun u =>
      u.sha = sha && u.ecosystem = d.ecosystem && u.name = d.name)) = false := by
    rw [List.any_eq_false]
    intro u hu
    rw [hfalse u hu]
    exact Bool.false_ne_true
  have hupd : (upsertOneDep g sha t_now d).updates
      = g.updates ++ [newUpdEdge g sha t_now d] := by
    unfold upsertOneDep
    rw [if_pos hc]
    show mergeUpdEdge g.updates (newUpdEdge g sha t_now d)
      = g.updates ++ [newUpdEdge g sha t_now d]
    unfold mergeUpdEdge
    rw [if_neg (by simp [hany, newUpdEdge])]
  refine ⟨newUpdEdge g sha t_now d, ?_, rfl, rfl, ?_⟩
  · rw [hupd]
    unfold findUpd
    rw [find?_append_of_none _ _ _ (by
      intro u hu
      have := hfalse u hu
      simpa [newUpdEdge] using this)]
    rw [List.find?_cons_of_pos]
    simp [newUpdEdge]
  · have hprev : (newUpdEdge g sha t_now d).prev_version
        = depPrevVersion g d.ecosystem d.name t_now := rfl
    rw [hprev]
    rcases pickLatest_spec (prevCandidates g d.ecosystem d.name t_now) with
      ⟨hnil, hnone⟩ | ⟨cand, hcand, hmem, hmax⟩
    · refine Or.inl ⟨hnil, ?_⟩
      unfold depPrevVersion
      rw [hnone]
      rfl
    · refine Or.inr ⟨cand, hmem, ?_, hmax⟩
      unfold depPrevVersion
      rw [hcand]
      rfl

/-- Witness for the amended C1 at the concrete graph: the edge written
for `c3` carries the latest any-branch version `2.0.0`. -/
theorem C1_witness :
    ∃ e, findUpd (upsertOneDep c1Graph "c3" 30
        { ecosystem := "npm", name := "react", version := "3.0.0" }).updates
        "c3" "npm" "react" = some e
      ∧ e.version = "3.0.0"
      ∧ e.is_major_bump = is_major_bump_value e.prev_version "3.0.0"
      ∧ ((prevCandidates c1Graph "npm" "react" 30 = [] ∧ e.prev_version = "")
         ∨ (∃ cand ∈ prevCandidates c1Graph "npm" "react" 30,
              e.prev_version = cand.2
              ∧ ∀ other ∈ prevCandidates c1Graph "npm" "react" 30,
                  other.1 ≤ cand.1)) :=
  C1_prev_version_latest_any_branch c1Graph "c3" 30
    { ecosystem := "npm", name := "react", version := "3.0.0" }
    (by decide) (by decide)

/-! ## Ingest orchestration (`run_branch_ingest` lines 1282-1474 and
`run_build_task`, main.py lines 100-158)

The walk loop wraps all per-commit work — metadata, merge, projection,
per-file extraction, anomaly scoring and the cursor update — in one
`try`; the handler (lines 1469-1470) logs and falls through to the next
commit.  The bootstrap prefix — `ensure_indexes`, repo/branch upsert,
parser loading, cursor lookup, commit enumeration (lines 1295-1310) —
runs before the `try`, so its exception escapes `run_branch_ingest`;
`run_build_task` catches it and reports a `failed` status.  The
per-commit work is abstracted as a fallible oracle returning the
commit's `committed_at`. -/

inductive TaskStatus
  | queued
  | in_progress
  | completed
  | skipped
  | failed
  deriving Repr, DecidableEq

/-- Cursor and bookkeeping of one walk. -/
structure IngestState where
  cursor : Option (String × ℤ)
  processedOk : List String
  failedCommits : List String
  deriving Repr, DecidableEq

/-- One iteration of the walk loop (lines 1318-1470): on success the
cursor is set to `(sha, committed_at)` (line 1462); on exception the
commit is only logged. -/
def processOneCommit (work : String → Except String ℤ) (st : IngestState)
    (sha : String) : IngestState :=
  match work sha with
  | Except.ok t =>
      { st with cursor := some (sha, t), processedOk := st.processedOk ++ [sha] }
  | Except.error _ =>
      { st with failedCommits := st.failedCommits ++ [sha] }

/-- The `for sha in todo` loop. -/
def processCommits (work : String → Except String ℤ) (todo : List String)
    (st : IngestState) : IngestState :=
  todo.foldl (processOneCommit work) st

/-- Embeds `run_branch_ingest` control flow: a bootstrap exception propagates
out; an empty commit list completes immediately (line 1312); otherwise
the loop runs to the end and the task completes (line 1472). -/
def run_branch_ingest (bootstrap : Except String (List String))
    (work : String → Except String ℤ) (st : IngestState) :
    Except String (IngestState × TaskStatus) :=
  match bootstrap with
  | Except.error e => Except.error e
  | Except.ok todo =>
    if todo.isEmpty then Except.ok (st, TaskStatus.completed)
    else Except.ok (processCommits work todo st, TaskStatus.completed)

/-- Embeds `run_build_task` (main.py lines 100-158): both `except` arms report
`failed`. -/
def run_build_task (bootstrap : Except String (List String))
    (work : String → Except String ℤ) (st : IngestState) : TaskStatus :=
  match run_branch_ingest bootstrap work st with
  | Except.error _ => TaskStatus.failed
  | Except.ok (_, s) => s

theorem processedOk_mono (work : String → Except String ℤ) :
    ∀ (todo : List String) (st : IngestState) (x : String),
      x ∈ st.processedOk → x ∈ (processCommits work todo st).processedOk := by
  intro todo
  induction todo with
  | nil => intro st x h; exact h
  | cons a t ih =>
    intro st x h
    apply ih
    unfold processOneCommit
    cases work a with
    | ok tv => exact List.mem_append_left _ h
    | error m => exact h

theorem failedCommits_mono (work : String → Except String ℤ) :
    ∀ (todo : List String) (st : IngestState) (x : String),
      x ∈ st.failedCommits → x ∈ (processCommits work todo st).failedCommits := by
  intro todo
  induction todo with
  | nil => intro st x h; exact h
  | cons a t ih =>
    intro st x h
    apply ih
    unfold processOneCommit
    cases work a with
    | ok tv => exact h
    | error m => exact List.mem_append_left _ h

theorem processCommits_attempts (work : String → Except String ℤ) :
    ∀ (todo : List String) (st : IngestState), ∀ sha ∈ todo,
      (∃ t, work sha = Except.ok t
        ∧ sha ∈ (processCommits work todo st).processedOk)
      ∨ (∃ m, work sha = Except.error m
        ∧ sha ∈ (processCommits work todo st).failedCommits) := by
  intro todo
  induction todo with
  | nil => intro st sha h; exact absurd h (List.not_mem_nil sha)
  | cons a t ih =>
    intro st sha hmem
    rcases List.mem_cons.mp hmem with rfl | htail
    · cases hw : work sha with
      | ok tv =>
        left
        refine ⟨tv, rfl, ?_⟩
        apply processedOk_mono work t (processOneCommit work st sha) sha
        unfold processOneCommit
        rw [hw]
        exact List.mem_append_right _ (List.mem_singleton_self _)
      | error m =>
        right
        refine ⟨m, rfl, ?_⟩
        apply failedCommits_mono work t (processOneCommit work st sha) sha
        unfold processOneCommit
        rw [hw]
        exact List.mem_append_right _ (List.mem_singleton_self _)
    · exact ih (processOneCommit work st a) sha htail

theorem processCommits_cursor (work : String → Except String ℤ) :
    ∀ (todo : List String) (st : IngestState) (sha : String) (t : ℤ),
      (processCommits work todo st).cursor = some (sha, t) →
      work sha = Except.ok t ∨ st.cursor = some (sha, t) := by
  intro todo
  induction todo with
  | nil => intro st sha t h; exact Or.inr h
  | cons a ta ih =>
    intro st sha t h
    rcases ih (processOneCommit work st a) sha t h with hok | hcur
    · exact Or.inl hok
    · unfold processOneCommit at hcur
      cases hw : work a with
      | ok tv =>
        rw [hw] at hcur
        simp only [Option.some.injEq, Prod.mk.injEq] at hcur
        rcases hcur with ⟨rfl, rfl⟩
        exact Or.inl hw
      | error m =>
        rw [hw] at hcur
        exact Or.inr hcur

/-- C6. Failure policy of the walk: a bootstrap exception propagates
out of `run_branch_ingest` and yields a `failed` status in
`run_build_task`; a per-commit exception is recorded (logged) and the
loop continues, so every commit of the list is either processed
successfully or recorded as failed; and the branch cursor only ever
points at a commit whose processing succeeded (or keeps its prior
value) — never at a failed commit. -/
theorem C6_failure_policy (work : String → Except String ℤ) :
    (∀ (e : String) (st : IngestState),
      run_branch_ingest (Except.error e) work st = Except.error e
      ∧ run_build_task (Except.error e) work st = TaskStatus.failed)
    ∧ (∀ (todo : List String) (st : IngestState), ∀ sha ∈ todo,
        (∃ t, work sha = Except.ok t
          ∧ sha ∈ (processCommits work todo st).processedOk)
        ∨ (∃ m, work sha = Except.error m
          ∧ sha ∈ (processCommits work todo st).failedCommits))
    ∧ (∀ (todo : List String) (st : IngestState) (sha : String) (t : ℤ),
        (processCommits work todo st).cursor = some (sha, t) →
        work sha = Except.ok t ∨ st.cursor = some (sha, t)) :=
  ⟨fun _e _st => ⟨rfl, rfl⟩,
   fun todo st => processCommits_attempts work todo st,
   fun todo st => processCommits_cursor work todo st⟩

/-- Per-commit oracle of the C6 witness: `bad` raises, the other two
commits succeed. -/
def c6Work : String → Except String ℤ
  | "good1" => Except.ok 100
  | "bad" => Except.error "parser crash"
  | "good2" => Except.ok 200
  | _ => Except.error "unknown sha"

/-- Witness for C6 at a concrete three-commit walk with a failing
middle commit. -/
theorem C6_witness :
    run_build_task (Except.error "git enumeration failure") c6Work
        { cursor := none, processedOk := [], failedCommits := [] } = TaskStatus.failed
    ∧ ((∃ t, c6Work "bad" = Except.ok t
          ∧ "bad" ∈ (processCommits c6Work ["good1", "bad", "good2"]
              { cursor := none, processedOk := [], failedCommits := [] }).processedOk)
        ∨ (∃ m, c6Work "bad" = Except.error m
          ∧ "bad" ∈ (processCommits c6Work ["good1", "bad", "good2"]
              { cursor := none, processedOk := [], failedCommits := [] }).failedCommits))
    ∧ (c6Work "good2" = Except.ok 200
        ∨ ({ cursor := none, processedOk := [], failedCommits := [] } : IngestState).cursor
            = some ("good2", 200)) :=
  ⟨((C6_failure_policy c6Work).1 "git enumeration failure"
      { cursor := none, processedOk := [], failedCommits := [] }).2,
   (C6_failure_policy c6Work).2.1 ["good1", "bad", "good2"]
      { cursor := none, processedOk := [], failedCommits := [] } "bad" (by decide),
   (C6_failure_policy c6Work).2.2 ["good1", "bad", "good2"]
      { cursor := none, processedOk := [], failedCommits := [] } "good2" 200 (by decide)⟩

/-! ## Per-file loop of the walk (`run_branch_ingest` lines 1352-1456)
and the familiarity counter (`mg_inc_contributor_file_touch`
lines 668-678)

The loop body `continue`s — skipping everything below, including the
trailing `mg_inc_contributor_file_touch` at line 1456 — when the blob is
missing or empty (line 1365), when the record is a deletion or the file
is not code-bearing (line 1400), and when `additions + deletions`
exceed 200000 (line 1402).  Results of the sub-extractors
(manifest parse, imports, symbols) are abstracted as boolean oracles;
the file classification (`_file_ext`, `_is_code_file`,
`SPECIAL_CODE_FILES`, `EXT_TO_LANG` from language_config.py) is
embedded concretely. -/

/-- Embeds `_file_ext` (lines 1266-1271): from the last `.` (anywhere in the
path, as `str.rfind` does) to the end; `""` when there is no dot. -/
def file_ext (p : String) : String :=
  if p.data.contains '.' then
    String.mk ('.' :: (p.data.reverse.takeWhile (fun c => c ≠ '.')).reverse)
  else ""

/-- Embeds `os.path.basename` for the forward-slash paths git emits. -/
def basename (p : String) : String :=
  String.mk (p.data.reverse.takeWhile (fun c => c ≠ '/')).reverse

/-- The manifest file names (build_engine.py lines 56-64). -/
def SPECIAL_CODE_FILES : List String :=
  ["requirements.txt", "Pipfile", "Pipfile.lock", "poetry.lock",
   "package.json", "package-lock.json", "pnpm-lock.yaml", "yarn.lock",
   "requirements-dev.txt", "pyproject.toml", "setup.cfg", "setup.py"]

/-- The keys of `EXT_TO_LANG` (every `file_extensions` entry of
`LANGUAGE_CONFIGS`, language_config.py). -/
def EXT_TO_LANG_KEYS : List String :=
  [".py", ".js", ".jsx", ".ts", ".tsx", ".rs", ".go", ".scala", ".sc",
   ".java", ".cpp", ".h", ".hpp", ".cc", ".cxx", ".hxx", ".hh",
   ".md", ".markdown", ".mdx"]

/-- Embeds `_is_code_file` (lines 67-69). -/
def is_code_file (p : String) : Bool :=
  SPECIAL_CODE_FILES.contains (basename p) || EXT_TO_LANG_KEYS.contains (file_ext p)

/-- The graph-writing calls the per-file loop body can make, in order. -/
inductive FileAction
  | linkFileTouch
  | upsertDependencies
  | linkRepoPackage
  | upsertImports
  | upsertSymbols
  | upsertCallsIntra
  | resolveCrossfile
  | touchSymbol
  | incContributorFileTouch
  deriving Repr, DecidableEq

/-- Boolean oracles for the data-dependent branches of the loop body. -/
structure FileStepEnv where
  blobNonempty : Bool
  manifestDeps : Bool
  pkgName : Bool
  importsFound : Bool
  symbolsFound : Bool
  defsFound : Bool
  callsFound : Bool
  touchesFound : Bool
  deriving Repr, DecidableEq

/-- The sequence of graph-writing calls the loop body (lines 1352-1456)
makes for one file-change record, given the oracle outcomes.  Each
`continue` of the source is a branch yielding `[]` for the remainder. -/
def fileStepActions (fc : FileChange) (env : FileStepEnv) : List FileAction :=
  FileAction.linkFileTouch ::
  (if env.blobNonempty = false then [] else
    (if (basename fc.path) ∈ SPECIAL_CODE_FILES then
        (if env.manifestDeps = true then [FileAction.upsertDependencies] else [])
        ++ (if basename fc.path = "package.json" ∧ env.pkgName = true then
              [FileAction.linkRepoPackage] else [])
      else [])
    ++ (if env.importsFound = true then [FileAction.upsertImports] else [])
    ++ (if fc.status = "D" ∨ is_code_file fc.path = false then [] else
        if 200000 < fc.additions + fc.deletions then [] else
          (if env.symbolsFound = true then
              (if env.defsFound = true then [FileAction.upsertSymbols] else [])
              ++ (if env.callsFound = true then
                    [FileAction.upsertCallsIntra, FileAction.resolveCrossfile] else [])
              ++ (if env.defsFound = true ∧ env.touchesFound = true then
                    [FileAction.touchSymbol] else [])
            else [])
          ++ [FileAction.incContributorFileTouch]))

/-- A `(Contributor)-[TOUCHED {count, last_touched_at}]->(File)` edge. -/
structure ContribTouchEdge where
  ckey : String
  path : String
  count : ℤ
  last_touched_at : ℤ
  deriving Repr, DecidableEq

/-- Embeds `mg_inc_contributor_file_touch` (lines 668-678): `MERGE` the edge
(`ON CREATE SET r.count = 0`), then `SET r.count = r.count + 1,
r.last_touched_at = $t` with `t = committed_at or 0`.  The `MATCH` of
the commit's author and the file is abstracted: `ckey` is the author
key, and the nodes are assumed present (the loop created them
earlier in the same commit). -/
def mg_inc_contributor_file_touch (edges : List ContribTouchEdge)
    (ckey path : String) (committed_at : Option ℤ) : List ContribTouchEdge :=
  let t := committed_at.getD 0
  if edges.any (fun e => e.ckey = ckey && e.path = path) then
    edges.map fun e =>
      if e.ckey = ckey && e.path = path then
        { e with count := e.count + 1, last_touched_at := t }
      else e
  else edges ++ [{ ckey := ckey, path := path, count := 0 + 1, last_touched_at := t }]

/-- Counterexample to C7 as stated: a modified non-code file
(`README.rst`, blob present, 2 adds and 1 del) gets its `TOUCHED` edge
but the loop `continue`s at line 1400 before
`mg_inc_contributor_file_touch`; the familiarity counter is NOT
incremented for this record. -/
theorem C7_counterexample :
    (FileAction.incContributorFileTouch ∉
      fileStepActions
        { path := "README.rst", status := "M", old_path := none
          additions := 2, deletions := 1 }
        { blobNonempty := true, manifestDeps := false, pkgName := false
          importsFound := false, symbolsFound := false, defsFound := false
          callsFound := false, touchesFound := false })
    ∧ (FileAction.linkFileTouch ∈
      fileStepActions
        { path := "README.rst", status := "M", old_path := none
          additions := 2, deletions := 1 }
        { blobNonempty := true, manifestDeps := false, pkgName := false
          importsFound := false, symbolsFound := false, defsFound := false
          callsFound := false, touchesFound := false }) := by
  decide

/-- C7 amended. `mg_inc_contributor_file_touch` runs exactly once for a
file-change record iff the blob loaded non-empty, the record is not a
deletion, the file is code-bearing, and the churn is within the 200000
cutoff; when it runs it increments the edge's `count` by one (starting
from 0 on creation) and sets `last_touched_at` to the commit's
`committed_at` (or 0 when missing). -/
theorem C7_familiarity_increment (fc : FileChange) (env : FileStepEnv)
    (edges : List ContribTouchEdge) (ckey : String) (tc : Option ℤ) :
    ((fileStepActions fc env).count FileAction.incContributorFileTouch
      = if env.blobNonempty = true ∧ fc.status ≠ "D" ∧ is_code_file fc.path = true
           ∧ fc.additions + fc.deletions ≤ 200000 then 1 else 0)
    ∧ (∀ e0 ∈ edges, e0.ckey = ckey → e0.path = fc.path →
        ∃ e ∈ mg_inc_contributor_file_touch edges ckey fc.path tc,
          e.ckey = ckey ∧ e.path = fc.path
          ∧ e.count = e0.count + 1 ∧ e.last_touched_at = tc.getD 0)
    ∧ ((∀ e0 ∈ edges, ¬(e0.ckey = ckey ∧ e0.path = fc.path)) →
        ∃ e ∈ mg_inc_contributor_file_touch edges ckey fc.path tc,
          e.ckey = ckey ∧ e.path = fc.path
          ∧ e.count = 1 ∧ e.last_touched_at = tc.getD 0) := by
  refine ⟨?_, ?_, ?_⟩
  · unfold fileStepActions
    rw [List.count_cons_of_ne
      (by decide : FileAction.incContributorFileTouch ≠ FileAction.linkFileTouch)]
    by_cases hb : env.blobNonempty = false
    · rw [if_pos hb, if_neg]
      · rfl
      · rintro ⟨hbt, -, -, -⟩
        rw [hb] at hbt
        exact Bool.noConfusion hbt
    · have hbt : env.blobNonempty = true := by
        revert hb; cases env.blobNonempty <;> simp
      rw [if_neg hb, List.count_append, List.count_append]
      have hM0 : (if (basename fc.path) ∈ SPECIAL_CODE_FILES then
          (if env.manifestDeps = true then [FileAction.upsertDependencies] else [])
          ++ (if basename fc.path = "package.json" ∧ env.pkgName = true then
                [FileAction.linkRepoPackage] else [])
        else []).count FileAction.incContributorFileTouch = 0 := by
        rw [List.count_eq_zero]
        split_ifs <;> decide
      have hI0 : (if env.importsFound = true then [FileAction.upsertImports]
          else []).count FileAction.incContributorFileTouch = 0 := by
        rw [List.count_eq_zero]
        split_ifs <;> decide
      rw [hM0, hI0]
      by_cases hskip : fc.status = "D" ∨ is_code_file fc.path = false
      · rw [if_pos hskip, if_neg]
        · rfl
        · rintro ⟨-, hD, hcode, -⟩
          rcases hskip with h | h
          · exact hD h
          · rw [h] at hcode
            exact Bool.noConfusion hcode
      · rw [if_neg hskip]
        push_neg at hskip
        by_cases hbig : 200000 < fc.additions + fc.deletions
        · rw [if_pos hbig, if_neg]
          · rfl
          · rintro ⟨-, -, -, hle⟩
            omega
        · rw [if_neg hbig, List.count_append]
          have hS0 : (if env.symbolsFound = true then
              (if env.defsFound = true then [FileAction.upsertSymbols] else [])
              ++ (if env.callsFound = true then
                    [FileAction.upsertCallsIntra, FileAction.resolveCrossfile] else [])
              ++ (if env.defsFound = true ∧ env.touchesFound = true then
                    [FileAction.touchSymbol] else [])
            else []).count FileAction.incContributorFileTouch = 0 := by
            rw [List.count_eq_zero]
            split_ifs <;> decide
          rw [hS0, if_pos]
          · rfl
          · refine ⟨hbt, hskip.1, ?_, by omega⟩
            cases hcode : is_code_file fc.path
            · exact absurd hcode hskip.2
            · rfl
  · intro e0 he0 hck hp
    rw [mg_inc_contributor_file_touch,
      if_pos (List.any_eq_true.mpr ⟨e0, he0, by simp [hck, hp]⟩)]
    refine ⟨{ e0 with count := e0.count + 1, last_touched_at := tc.getD 0 },
      List.mem_map.mpr ⟨e0, he0, ?_⟩, hck, hp, rfl, rfl⟩
    rw [if_pos (show (e0.ckey = ckey && e0.path = fc.path) = true by simp [hck, hp])]
  · intro hnone
    rw [mg_inc_contributor_file_touch, if_neg]
    · exact ⟨{ ckey := ckey, path := fc.path, count := 0 + 1, last_touched_at := tc.getD 0 },
        List.mem_append.mpr (Or.inr (List.mem_singleton_self _)), rfl, rfl, by norm_num, rfl⟩
    · intro hany
      rcases List.any_eq_true.mp hany with ⟨e0, he0, hc0⟩
      simp only [Bool.and_eq_true, decide_eq_true_eq] at hc0
      exact hnone e0 he0 ⟨hc0.1, hc0.2⟩

/-- Witness for the amended C7: incrementing the familiarity edge of an
existing contributor-file pair bumps `count` from 4 to 5 and stamps
`last_touched_at` with the commit time. -/
theorem C7_witness :
    ∃ e ∈ mg_inc_contributor_file_touch
        [{ ckey := "alice@example.com", path := "src/a.py"
           count := 4, last_touched_at := 50 }]
        "alice@example.com" "src/a.py" (some 60),
      e.ckey = "alice@example.com" ∧ e.path = "src/a.py"
        ∧ e.count = 4 + 1 ∧ e.last_touched_at = (60 : ℤ) :=
  (C7_familiarity_increment
      { path := "src/a.py", status := "M", old_path := none
        additions := 2, deletions := 1 }
      { blobNonempty := true, manifestDeps := false, pkgName := false
        importsFound := true, symbolsFound := true, defsFound := true
        callsFound := true, touchesFound := true }
      [{ ckey := "alice@example.com", path := "src/a.py"
         count := 4, last_touched_at := 50 }]
      "alice@example.com" (some 60)).2.1
    { ckey := "alice@example.com", path := "src/a.py"
      count := 4, last_touched_at := 50 }
    (by decide) rfl rfl

/-! ## Manifest parsers (`parse_requirements_txt` lines 568-582,
`parse_package_json` lines 585-596, `parse_pyproject_toml`
lines 611-637)

`parse_package_json` guards only `json.loads` with `try/except`:

```
try:
    pkg = json.loads(blob.decode("utf-8", "ignore") or an-empty-object-default)
except Exception:
    return out
for sec in ("dependencies", "devDependencies", ...):
    d = pkg.get(sec) or {}
```

When the blob is valid JSON whose top level is not an object — e.g.
`b"[]"` — `json.loads` succeeds and returns a list, and `pkg.get(sec)`
raises `AttributeError` OUTSIDE the `try`, so the function raises.  The
embedding models the phase after `json.loads` over a JSON value tree,
with the raise made explicit. -/

/-- A decoded JSON value (numbers as integers suffice for the model). -/
inductive Json
  | null
  | bool (b : Bool)
  | num (n : ℤ)
  | str (s : String)
  | arr (elems : List Json)
  | obj (fields : List (String × Json))
  deriving Repr

/-- A manifest entry `{ecosystem, name, version}` as produced by the
parsers. -/
structure ManifestDep where
  ecosystem : String
  name : String
  version : String
  deriving Repr, DecidableEq

/-- Python `pkg.get(k)`: `none` for an absent key — but an
`AttributeError` when the receiver is not a dict. -/
def jsonGet (v : Json) (k : String) : Except String (Option Json) :=
  match v with
  | Json.obj fields => Except.ok ((fields.find? (fun f => f.1 = k)).map (fun f => f.2))
  | _ => Except.error "AttributeError"

/-- Python `str(ver)` on a JSON-decoded value, best effort (`repr`-like
text for containers; the theorems do not depend on those cases). -/
def pyStr : Json → String
  | Json.null => "None"
  | Json.bool b => if b then "True" else "False"
  | Json.num n => toString n
  | Json.str s => s
  | Json.arr _ => "[...]"
  | Json.obj _ => "\x7b...\x7d"

/-- Python `str.lower()` over the character list (ASCII manifest
names; `Char.toLower` matches Python on this range). -/
def pyLower (s : String) : String := String.mk (s.data.map Char.toLower)

/-- The section names merged by `parse_package_json` (line 591). -/
def PKG_SECTIONS : List String :=
  ["dependencies", "devDependencies", "peerDependencies", "optionalDependencies"]

/-- One section of the loop body (lines 592-595): `d = pkg.get(sec) or {}`
(raising on a non-dict receiver), then entries only when `d` is a dict. -/
def packageJsonSection (pkg : Json) (sec : String) : Except String (List ManifestDep) :=
  match jsonGet pkg sec with
  | Except.error e => Except.error e
  | Except.ok d =>
    match d with
    | some (Json.obj fields) =>
        Except.ok (fields.map (fun f =>
          { ecosystem := "npm", name := pyLower f.1, version := pyStr f.2 }))
    | _ => Except.ok []

/-- Embeds `parse_package_json` from the `json.loads` outcome on: a parse
failure is caught and yields `[]`; a parsed value is folded through the
four sections, any of which can raise. -/
def parse_package_json_from (parsed : Except String Json) :
    Except String (List ManifestDep) :=
  match parsed with
  | Except.error _ => Except.ok []
  | Except.ok pkg =>
    PKG_SECTIONS.foldl
      (fun acc sec =>
        match acc with
        | Except.error e => Except.error e
        | Except.ok out =>
          match packageJsonSection pkg sec with
          | Except.error e => Except.error e
          | Except.ok entries => Except.ok (out ++ entries))
      (Except.ok [])

/-- C9 evidence. `parse_package_json` is not total: on the valid JSON
input `b"[]"` (top-level array; `json.loads` succeeds, so the
`try/except` does not fire) the section loop evaluates `pkg.get(...)`
on a list and raises `AttributeError` instead of returning `[]`.  A
JSON parse failure, by contrast, is caught and yields `[]`, and an
object input yields lowercased names with `str(ver)` versions. -/
theorem C9_package_json_raises :
    parse_package_json_from (Except.ok (Json.arr [])) = Except.error "AttributeError"
    ∧ parse_package_json_from (Except.error "json decode error") = Except.ok []
    ∧ parse_package_json_from (Except.ok (Json.obj
        [("dependencies", Json.obj [("React", Json.str "^17.0.2")])]))
      = Except.ok [{ ecosystem := "npm", name := "react", version := "^17.0.2" }] := by
  exact ⟨rfl, rfl, rfl⟩

end BuildEngine
